import Mathlib

/-!
Verification of the menpo graph/tree core (`menpo/shape/graph.py`).

The Python source is shallowly embedded: edge arrays become `List (Nat × Nat)`
(a numpy `(n_edges, 2)` integer array that passes validation is zero-based and
hence non-negative; the two-column shape is inherent in the pair type),
adjacency lists become `List (List Nat)`, raising becomes `Except String`,
and the unbounded recursions of the source (path search, DFS cycle detection,
the predecessor walk of `depth_of_vertex`) are given explicit fuel that
dominates their actual recursion depth.
-/

namespace Menpo

/-- Maximum entry of an edge array, `adjacency_array.max()` (0 on empty input;
the source only evaluates it on validated non-empty arrays). -/
def arrMax (l : List (Nat × Nat)) : Nat :=
  l.foldl (fun a e => max a (max e.1 e.2)) 0

/-- Minimum entry of an edge array, `adjacency_array.min()` (0 on empty input;
the source only evaluates it on non-empty arrays). -/
def arrMin (l : List (Nat × Nat)) : Nat :=
  match l with
  | [] => 0
  | e :: rest => rest.foldl (fun a x => min a (min x.1 x.2)) (min e.1 e.2)

/-- `_unique_array_rows`: `np.unique` on the rows viewed as opaque keys with
`return_index=True` yields, for each distinct row, the index of its first
occurrence; sorting those indices and selecting keeps exactly the rows whose
index is their first occurrence, in ascending index order. -/
def uniqueArrayRows (l : List (Nat × Nat)) : List (Nat × Nat) :=
  ((List.range l.length).filter
      (fun i => !((l.take i).contains (l.getD i (0, 0))))).map
    (fun i => l.getD i (0, 0))

/-- Specification-side definition for the deduplication step ("deduplicates
rows while preserving first-seen order; keep the lowest original index per
unique key"): scan left to right, keeping a row iff it has not been seen
before.  `seen` accumulates all rows already scanned. -/
def dedupFirstSeenAux (seen : List (Nat × Nat)) :
    List (Nat × Nat) → List (Nat × Nat)
  | [] => []
  | x :: xs =>
    if x ∈ seen then dedupFirstSeenAux (seen ++ [x]) xs
    else x :: dedupFirstSeenAux (seen ++ [x]) xs

/-- Specification-side row deduplication, first-seen order. -/
def dedupFirstSeen (l : List (Nat × Nat)) : List (Nat × Nat) :=
  dedupFirstSeenAux [] l

/-- `adjacency_list[i].append(x)` on a list-of-lists. -/
def appendAt (acc : List (List Nat)) (i : Nat) (x : Nat) : List (List Nat) :=
  acc.set i (acc.getD i [] ++ [x])

/-- `_get_adjacency_list` of `UndirectedGraph` (both endpoints get the other
appended, in source order) and of `DirectedGraph`/`Tree` (only the parent gets
the child appended), selected by the `directed` flag. -/
def getAdjacencyList (directed : Bool) (arr : List (Nat × Nat)) (nv : Nat) :
    List (List Nat) :=
  arr.foldl
    (fun acc e =>
      if directed then appendAt acc e.1 e.2
      else appendAt (appendAt acc e.1 e.2) e.2 e.1)
    (List.replicate nv [])

/-- State of a `Graph` instance after `Graph.__init__`: the deduplicated
`adjacency_array`, the derived `adjacency_list`, and a `directed` flag
standing for the `UndirectedGraph` / `DirectedGraph` subclass split. -/
structure Graph where
  directed : Bool
  adjacency_array : List (Nat × Nat)
  adjacency_list : List (List Nat)
deriving DecidableEq, Repr

/-- `n_edges` property. -/
def Graph.n_edges (g : Graph) : Nat := g.adjacency_array.length

/-- `n_vertices` property: `adjacency_array.max() + 1`. -/
def Graph.n_vertices (g : Graph) : Nat := arrMax g.adjacency_array + 1

/-- `Graph.__init__`: reject an empty edge array, reject arrays whose minimum
entry is not 0 (negative entries also make `min() != 0` hold, so restricting
the embedding to natural-number entries loses only inputs the source rejects),
deduplicate the rows, and derive the adjacency list. -/
def Graph.init (directed : Bool) (arr : List (Nat × Nat)) :
    Except String Graph :=
  if arr.length = 0 then
    .error ("You must provide at least one edge.")
  else if arrMin arr ≠ 0 then
    .error ("The vertices must be numbered starting from 0.")
  else
    let a := uniqueArrayRows arr
    .ok { directed := directed, adjacency_array := a,
          adjacency_list := getAdjacencyList directed a (arrMax a + 1) }

/-- Python truthiness of an optional path (`if newpath:`): `None` and the
empty list are falsy. -/
def optTruthy (o : Option (List Int)) : Bool :=
  match o with
  | none => false
  | some l => !l.isEmpty

/-- Body of `Graph.find_path`.  Vertex arguments are integers (Python ints);
the recursion is fueled, the wrapper passes fuel `n_vertices + 2` which
strictly dominates the recursion depth (the accumulated path has pairwise
distinct entries, at most `n_vertices` of which are in range, plus at most the
initial out-of-range start). -/
def findPathAux (adj : List (List Nat)) (nv : Nat) :
    Nat → Int → Int → List Int → Option (List Int)
  | 0, _, _, _ => none
  | fuel + 1, start, dst, path =>
    let path := path ++ [start]
    if start = dst then some path
    else if (nv : Int) - 1 < start ∨ start < 0 then none
    else
      ((adj.getD start.toNat []).map (fun n => Int.ofNat n)).findSome?
        (fun v =>
          if v ∈ path then none
          else
            match findPathAux adj nv fuel v dst path with
            | some np => if np.isEmpty then none else some np
            | none => none)

/-- `Graph.find_path(start, end, path=[])`. -/
def Graph.find_path (g : Graph) (start dst : Int) : Option (List Int) :=
  findPathAux g.adjacency_list g.n_vertices (g.n_vertices + 2) start dst []

/-- Body of `Graph.find_all_paths`, fueled like `findPathAux`. -/
def findAllPathsAux (adj : List (List Nat)) (nv : Nat) :
    Nat → Int → Int → List Int → List (List Int)
  | 0, _, _, _ => []
  | fuel + 1, start, dst, path =>
    let path := path ++ [start]
    if start = dst then [path]
    else if (nv : Int) - 1 < start ∨ start < 0 then []
    else
      ((adj.getD start.toNat []).map (fun n => Int.ofNat n)).foldl
        (fun acc v =>
          if v ∈ path then acc
          else acc ++ findAllPathsAux adj nv fuel v dst path)
        []

/-- `Graph.find_all_paths(start, end, path=[])`. -/
def Graph.find_all_paths (g : Graph) (start dst : Int) : List (List Int) :=
  findAllPathsAux g.adjacency_list g.n_vertices (g.n_vertices + 2) start dst []

/-- `Graph.n_paths`. -/
def Graph.n_paths (g : Graph) (start dst : Int) : Nat :=
  (g.find_all_paths start dst).length

/-- Body of `Graph.find_shortest_path`, fueled like `findPathAux`. -/
def findShortestPathAux (adj : List (List Nat)) (nv : Nat) :
    Nat → Int → Int → List Int → Option (List Int)
  | 0, _, _, _ => none
  | fuel + 1, start, dst, path =>
    let path := path ++ [start]
    if start = dst then some path
    else if (nv : Int) - 1 < start ∨ start < 0 then none
    else
      ((adj.getD start.toNat []).map (fun n => Int.ofNat n)).foldl
        (fun shortest v =>
          if v ∈ path then shortest
          else
            let np := findShortestPathAux adj nv fuel v dst path
            if optTruthy np then
              if optTruthy shortest = false ∨
                  (np.getD []).length < (shortest.getD []).length then np
              else shortest
            else shortest)
        none

/-- `Graph.find_shortest_path(start, end, path=[])`. -/
def Graph.find_shortest_path (g : Graph) (start dst : Int) :
    Option (List Int) :=
  findShortestPathAux g.adjacency_list g.n_vertices (g.n_vertices + 2)
    start dst []

/-- Mutable state threaded through `_has_cycles`'s inner `dfs`: the `entered`
and `exited` sets (duplicate-free by construction, so lists suffice), the
`tree_edges` dict (association list keyed by the discovered vertex) and the
`back_edges` dict-of-sets (flattened to the list of `(target, source)` pairs;
only its non-emptiness is ever observed). -/
structure DfsState where
  entered : List Nat
  exited : List Nat
  tree_edges : List (Nat × Nat)
  back_edges : List (Nat × Nat)
deriving DecidableEq, Repr

/-- `tree_edges.get(node, None)`. -/
def assocGet (l : List (Nat × Nat)) (k : Nat) : Option Nat :=
  (l.find? (fun p => p.1 == k)).map Prod.snd

/-- `tree_edges[y] = node`. -/
def assocSet (l : List (Nat × Nat)) (k v : Nat) : List (Nat × Nat) :=
  if (l.find? (fun p => p.1 == k)).isSome then
    l.map (fun p => if p.1 == k then (k, v) else p)
  else l ++ [(k, v)]

/-- `back_edges.setdefault(y, set()).add(node)` (set semantics: insert the
pair if absent). -/
def insertBack (l : List (Nat × Nat)) (p : Nat × Nat) : List (Nat × Nat) :=
  if p ∈ l then l else l ++ [p]

/-- The edge-classification step of `dfs` for the neighbour `y` of `node`:
record a tree edge when `y` is unseen; otherwise record a back edge — for
undirected graphs unless `y` is `node`'s recorded discovery parent, for
directed graphs unless `y` has already exited. -/
def dfsClassify (directed : Bool) (node : Nat) (s : DfsState) (y : Nat) :
    DfsState :=
  if y ∉ s.entered then
    { s with tree_edges := assocSet s.tree_edges y node }
  else if (directed = false ∧ assocGet s.tree_edges node ≠ some y)
      ∨ (directed = true ∧ y ∉ s.exited) then
    { s with back_edges := insertBack s.back_edges (y, node) }
  else s

/-- The recursive `dfs` of `_has_cycles`: enter the node, classify each
neighbour and recurse into it, then exit the node.  Fuel `V + 1` (passed by
`hasCyclesList`) dominates the depth of the productive calls (each enters a
fresh vertex), and a call with exhausted fuel returns the state unchanged
exactly like a call on an already-entered vertex would. -/
def dfsRun (adj : List (List Nat)) (directed : Bool) :
    Nat → Nat → DfsState → DfsState
  | 0, _, st => st
  | fuel + 1, node, st =>
    if node ∈ st.entered then st
    else
      let st1 : DfsState := { st with entered := st.entered ++ [node] }
      let st2 :=
        (adj.getD node []).foldl
          (fun s y => dfsRun adj directed fuel y (dfsClassify directed node s y))
          st1
      { st2 with exited := st2.exited ++ [node] }

/-- `_has_cycles(adjacency_list, directed)`: run `dfs` from every vertex with
fresh state; report a cycle iff some run produced a non-empty `back_edges`. -/
def hasCyclesList (adjacency_list : List (List Nat)) (directed : Bool) :
    Bool :=
  (List.range adjacency_list.length).any
    (fun x =>
      !(dfsRun adjacency_list directed (adjacency_list.length + 1) x
          ⟨[], [], [], []⟩).back_edges.isEmpty)

/-- `UndirectedGraph.has_cycles` / `DirectedGraph.has_cycles`, dispatched on
the subclass flag. -/
def Graph.has_cycles (g : Graph) : Bool :=
  hasCyclesList g.adjacency_list g.directed

/-- `Graph.is_tree`: `not self.has_cycles() and self.n_edges ==
self.n_vertices - 1`. -/
def Graph.is_tree (g : Graph) : Bool :=
  !g.has_cycles && (g.n_edges == g.n_vertices - 1)

/-- `Tree._get_predecessors_list`: `predecessors_list[child] = parent` for
every edge, root left as `None`. -/
def getPredecessorsList (g : Graph) : List (Option Nat) :=
  g.adjacency_array.foldl (fun pl e => pl.set e.2 (some e.1))
    (List.replicate g.n_vertices none)

/-- State of a `Tree` instance: the underlying directed graph, the root and
the predecessor list. -/
structure Tree where
  g : Graph
  root_vertex : Nat
  predecessors_list : List (Option Nat)
deriving DecidableEq, Repr

/-- `Tree.__init__`: run `Graph.__init__` (directed), reject edge sets for
which `is_tree()` fails (together with the redundant repeated edge-count
check), validate the root with `_check_vertex`, and derive the predecessor
list. -/
def Tree.init (arr : List (Nat × Nat)) (root : Nat) : Except String Tree :=
  match Graph.init true arr with
  | .error e => .error e
  | .ok g =>
    if ¬(g.is_tree = true ∧ g.n_edges = g.n_vertices - 1) then
      .error ("The provided edges do not represent a tree.")
    else if g.n_vertices - 1 < root then
      .error ("The vertex must be between 0 and n_vertices-1.")
    else
      .ok { g := g, root_vertex := root, predecessors_list :=
              getPredecessorsList g }

/-- The `while not parent == root` loop of `Tree.depth_of_vertex`.  A `none`
result models the source crashing (`predecessors_list[current]` is `None` or
out of range) or looping forever on a predecessor cycle; on a genuine rooted
tree the chain reaches the root in fewer than `n_vertices` steps, which is
the fuel the wrapper passes. -/
def depthLoop (pred : List (Option Nat)) (root : Nat) :
    Nat → Nat → Nat → Option Nat
  | fuel, parent, depth =>
    if parent = root then some depth
    else
      match fuel with
      | 0 => none
      | f + 1 =>
        match pred.getD parent none with
        | none => none
        | some p => depthLoop pred root f p (depth + 1)

/-- `Tree.depth_of_vertex`: `_check_vertex`, then walk the predecessor list
to the root counting steps. -/
def Tree.depth_of_vertex (t : Tree) (v : Nat) : Except String Nat :=
  if t.g.n_vertices - 1 < v then
    .error ("The vertex must be between 0 and n_vertices-1.")
  else
    match depthLoop t.predecessors_list t.root_vertex t.g.n_vertices v 0 with
    | some d => .ok d
    | none => .error ("predecessor chain does not reach the root")

/-- `Tree.parent`: `_check_vertex`, then `predecessors_list[vertex]`
(`None` for the root). -/
def Tree.parent (t : Tree) (v : Nat) : Except String (Option Nat) :=
  if t.g.n_vertices - 1 < v then
    .error ("The vertex must be between 0 and n_vertices-1.")
  else
    .ok (t.predecessors_list.getD v none)

/-- `current_vertex in item` for an edge tuple. -/
def touches (v : Nat) (e : Nat × Nat) : Bool :=
  e.1 == v || e.2 == v

/-- `_get_children`'s per-edge step: `m.index(p) == 0` holds exactly when the
first component is the popped vertex, in which case the child is the second
component, otherwise the first. -/
def otherEnd (v : Nat) (e : Nat × Nat) : Nat :=
  if e.1 = v then e.2 else e.1

/-- The `while len(vertices_to_visit) > 0` loop of `_correct_tree_edges`:
pop the first queued vertex, collect the pool edges touching it (removing
them all from the pool — `edges.remove` per collected item), orient each as
(popped vertex, other endpoint) and enqueue the children. -/
def correctTreeEdgesLoop :
    List Nat → List (Nat × Nat) → List (Nat × Nat) → List (Nat × Nat)
  | [], _, out => out
  | v :: rest, pool, out =>
    let current := pool.filter (fun e => touches v e)
    let pool' := pool.filter (fun e => !touches v e)
    let children := current.map (otherEnd v)
    correctTreeEdgesLoop (rest ++ children) pool'
      (out ++ children.map (fun c => (v, c)))
termination_by q pool _ => q.length + 2 * pool.length
decreasing_by
  simp only [List.length_append, List.length_map, List.length_cons]
  have h2 := List.length_eq_length_filter_add (l := pool)
    (fun e => touches v e)
  simp only at h2
  omega

/-- `_correct_tree_edges(edges, root_vertex)`. -/
def correctTreeEdges (edges : List (Nat × Nat)) (root : Nat) :
    List (Nat × Nat) :=
  correctTreeEdgesLoop [root] edges []

/-- `UndirectedGraph.minimum_spanning_tree`: the external PADS solver
(`menpo.external.PADS.MinimumSpanningTree`, outside this repository) consumes
the graph and the weight matrix and returns an unordered spanning edge set;
it is passed here as the `solver_edges` argument.  The method then orients
the edges by BFS from the root and builds a `Tree`. -/
def Graph.minimum_spanning_tree (g : Graph) (weights : List (List Int))
    (solver_edges : List (Nat × Nat)) (root : Nat) : Except String Tree :=
  Tree.init (correctTreeEdges solver_edges root) root

/-- Modelled from the spec: the external edge-mask helper
`menpo.shape.adjacency.mask_adjacency_array` (not part of this repository's
sources) — "filter EdgeSet to edges whose both endpoints are kept". -/
def mask_adjacency_array (mask : List Bool) (adj : List (Nat × Nat)) :
    List (Nat × Nat) :=
  adj.filter (fun e => mask.getD e.1 false && mask.getD e.2 false)

/-- Modelled from the spec: the renumbering half of the external helper
`menpo.shape.adjacency.reindex_adjacency_array` (not part of this
repository's sources) — "edges renumbered to dense 0..k-1, preserving
relative order of first appearance".  The flattened vertex occurrences are
deduplicated in first-seen order and each vertex is replaced by its position
in that list. -/
def reindex_adjacency_array (adj : List (Nat × Nat)) : List (Nat × Nat) :=
  let verts := (adj.foldr (fun e acc => e.1 :: e.2 :: acc) []).eraseDups
  adj.map (fun e => (verts.indexOf e.1, verts.indexOf e.2))

/-- Modelled from the spec: predecessor-chain walk used by the tree-aware
mask helper — find the nearest *kept* ancestor of a vertex, walking the
predecessor list. -/
def nearestKeptAncestor (mask : List Bool) (pred : List (Option Nat)) :
    Nat → Nat → Option Nat
  | 0, _ => none
  | fuel + 1, v =>
    match pred.getD v none with
    | none => none
    | some p =>
      if mask.getD p false then some p
      else nearestKeptAncestor mask pred fuel p

/-- Modelled from the spec: the external tree-aware mask helper
`menpo.shape.adjacency.mask_adjacency_array_tree` (not part of this
repository's sources) — keep the kept vertices and "reconnect a kept
descendant to its nearest kept ancestor when intermediate ancestors are
dropped".  The adjacency-list argument is accepted (the source passes it)
but the reconnection needs only the predecessor chain. -/
def mask_adjacency_array_tree (mask : List Bool) (adj : List (Nat × Nat))
    (adjacency_list : List (List Nat)) (pred : List (Option Nat))
    (root : Nat) : List (Nat × Nat) :=
  (List.range pred.length).filterMap
    (fun v =>
      if mask.getD v false ∧ v ≠ root then
        (nearestKeptAncestor mask pred pred.length v).map (fun a => (a, v))
      else none)

/-- Modelled from the spec: the point-cloud collaborator's boolean-mask row
subselection (`points[mask, :]`).  Coordinate values are opaque to the
masking logic; rows are kept in ascending index order. -/
def maskRows (mask : List Bool) (points : List (List Int)) :
    List (List Int) :=
  ((mask.zip points).filter (fun mp => mp.1)).map Prod.snd

/-- State of a `PointUndirectedGraph`: the undirected graph state plus the
point-cloud rows (`n_points = points.length`). -/
structure PointUndirectedGraph where
  g : Graph
  points : List (List Int)
deriving DecidableEq, Repr

/-- `PointUndirectedGraph.from_mask`: length check, all-true shortcut
returning the copy unchanged, otherwise filter the edges with the external
helper, fail if no edge survives, reindex, rebuild the adjacency list and
subselect the point rows.  The embedding is pure, which models the source's
copy-on-mask discipline (`pg = self.copy()` is mutated, `self` never is). -/
def PointUndirectedGraph.from_mask (pg : PointUndirectedGraph)
    (mask : List Bool) : Except String PointUndirectedGraph :=
  if mask.length ≠ pg.points.length then
    .error ("Mask must be a 1D boolean array of the same number of entries " ++
      "as points in this PointUndirectedGraph.")
  else if mask.all (fun b => b) then .ok pg
  else
    let masked_adj := mask_adjacency_array mask pg.g.adjacency_array
    if masked_adj.length = 0 then
      .error ("The provided mask deletes all edges.")
    else
      let a := reindex_adjacency_array masked_adj
      .ok { g := { directed := false, adjacency_array := a,
                   adjacency_list := getAdjacencyList false a (arrMax a + 1) },
            points := maskRows mask pg.points }

/-- State of a `PointDirectedGraph`: the directed graph state plus the
point-cloud rows.  Note that `PointDirectedGraph.__init__` assigns only
`adjacency_array`, `adjacency_list` and `points` — there is no
`predecessors_list` and no `root_vertex` attribute. -/
structure PointDirectedGraph where
  g : Graph
  points : List (List Int)
deriving DecidableEq, Repr

/-- `PointDirectedGraph.from_mask`: length check (the source's message even
says "PointTree"), all-true shortcut, otherwise the source evaluates
`pt.predecessors_list` and `pt.root_vertex` as arguments for
`mask_adjacency_array_tree` — attributes a plain `PointDirectedGraph`
instance never has, so the call raises `AttributeError` before any helper
runs; that failure is modelled as an error return. -/
def PointDirectedGraph.from_mask (pg : PointDirectedGraph)
    (mask : List Bool) : Except String PointDirectedGraph :=
  if mask.length ≠ pg.points.length then
    .error ("Mask must be a 1D boolean array of the same number of entries " ++
      "as points in this PointTree.")
  else if mask.all (fun b => b) then .ok pg
  else
    .error ("AttributeError: PointDirectedGraph instance has no attribute " ++
      "predecessors_list")

/-- State of a `PointTree`: the tree state plus the point-cloud rows. -/
structure PointTree where
  t : Tree
  points : List (List Int)
deriving DecidableEq, Repr

/-- `PointTree.from_mask`: length check, all-true shortcut, otherwise filter
with the tree-aware helper, fail if no edge survives, reindex, subselect the
point rows and rebuild the adjacency and predecessor lists. -/
def PointTree.from_mask (pt : PointTree) (mask : List Bool) :
    Except String PointTree :=
  if mask.length ≠ pt.points.length then
    .error ("Mask must be a 1D boolean array of the same number of entries " ++
      "as points in this PointTree.")
  else if mask.all (fun b => b) then .ok pt
  else
    let masked_adj := mask_adjacency_array_tree mask pt.t.g.adjacency_array
      pt.t.g.adjacency_list pt.t.predecessors_list pt.t.root_vertex
    if masked_adj.length = 0 then
      .error ("The provided mask deletes all edges.")
    else
      let a := reindex_adjacency_array masked_adj
      let g' : Graph :=
        { directed := true, adjacency_array := a,
          adjacency_list := getAdjacencyList true a (arrMax a + 1) }
      .ok { t := { g := g', root_vertex := pt.t.root_vertex,
                   predecessors_list := getPredecessorsList g' },
            points := maskRows mask pt.points }

/-- Undirected adjacency of an edge list: `u` and `v` are joined by an edge
in either orientation. -/
def adjU (T : List (Nat × Nat)) (u v : Nat) : Prop :=
  (u, v) ∈ T ∨ (v, u) ∈ T

/-- Reachability along undirected edges of an edge list. -/
inductive ReachU (T : List (Nat × Nat)) : Nat → Nat → Prop
  | refl (v : Nat) : ReachU T v v
  | tail {a b c : Nat} : ReachU T a b → adjU T b c → ReachU T a c

/-- The solver's output "forming a spanning tree" of a graph on `nv`
vertices: `nv - 1` edges within range that connect every vertex (the
standard characterisation — an edge count one less than the vertex count
together with connectivity is equivalent to being a tree). -/
def isSpanningTree (nv : Nat) (T : List (Nat × Nat)) : Prop :=
  T.length + 1 = nv ∧ (∀ e ∈ T, e.1 < nv ∧ e.2 < nv) ∧
    ∀ v, v < nv → ReachU T 0 v

theorem contains_iff_mem {l : List (Nat × Nat)} {x : Nat × Nat} :
    l.contains x = true ↔ x ∈ l := by
  simp [List.contains, List.elem_iff]

theorem getD_replicate_nil {n v : Nat} :
    (List.replicate n ([] : List Nat)).getD v [] = [] := by
  rcases Nat.lt_or_ge v n with h | h
  · simp [List.getD_eq_getElem?_getD, List.getElem?_replicate, h]
  · simp [List.getD_eq_getElem?_getD, List.getElem?_eq_none, h]

theorem mem_appendAt {acc : List (List Nat)} {i y x v : Nat}
    (h : x ∈ (appendAt acc i y).getD v []) :
    x ∈ acc.getD v [] ∨ (v = i ∧ x = y) := by
  unfold appendAt at h
  rw [List.getD_eq_getElem?_getD, List.getElem?_set] at h
  by_cases hiv : i = v
  · subst hiv
    by_cases hlen : i < acc.length
    · rw [if_pos rfl, if_pos hlen, Option.getD_some] at h
      rcases List.mem_append.mp h with h | h
      · exact Or.inl h
      · exact Or.inr ⟨rfl, List.mem_singleton.mp h⟩
    · simp [hlen] at h
  · rw [if_neg hiv, ← List.getD_eq_getElem?_getD] at h
    exact Or.inl h

theorem adj_foldl_prop {d : Bool} {Q : Nat → Nat → Prop} :
    ∀ (l : List (Nat × Nat)) (acc : List (List Nat)),
      (∀ v x, x ∈ acc.getD v [] → Q v x) →
      (∀ e ∈ l, Q e.1 e.2) → (∀ e ∈ l, d = false → Q e.2 e.1) →
      ∀ v x,
        x ∈ (l.foldl
            (fun acc e =>
              if d then appendAt acc e.1 e.2
              else appendAt (appendAt acc e.1 e.2) e.2 e.1) acc).getD v [] →
        Q v x := by
  intro l
  induction l with
  | nil => intro acc hacc _ _ v x hx; exact hacc v x hx
  | cons e tl ih =>
    intro acc hacc h1 h2 v x hx
    rw [List.foldl_cons] at hx
    refine ih _ ?_ (fun f hf => h1 f (List.mem_cons_of_mem _ hf))
      (fun f hf => h2 f (List.mem_cons_of_mem _ hf)) v x hx
    intro v' x' hx'
    by_cases hd : d
    · rw [if_pos hd] at hx'
      rcases mem_appendAt hx' with h | ⟨rfl, rfl⟩
      · exact hacc _ _ h
      · exact h1 e (List.mem_cons_self _ _)
    · rw [if_neg hd] at hx'
      rcases mem_appendAt hx' with h | ⟨rfl, rfl⟩
      · rcases mem_appendAt h with h' | ⟨rfl, rfl⟩
        · exact hacc _ _ h'
        · exact h1 e (List.mem_cons_self _ _)
      · exact h2 e (List.mem_cons_self _ _) (Bool.eq_false_iff.mpr hd)

theorem mem_getAdjacencyList {d : Bool} {arr : List (Nat × Nat)}
    {nv v x : Nat} (h : x ∈ (getAdjacencyList d arr nv).getD v []) :
    ∃ e ∈ arr, (v = e.1 ∧ x = e.2) ∨ (d = false ∧ v = e.2 ∧ x = e.1) := by
  refine adj_foldl_prop (Q := fun v x => ∃ e ∈ arr,
    (v = e.1 ∧ x = e.2) ∨ (d = false ∧ v = e.2 ∧ x = e.1)) arr
    (List.replicate nv []) ?_ ?_ ?_ v x h
  · intro v' x' hx'; rw [getD_replicate_nil] at hx'; cases hx'
  · intro e he; exact ⟨e, he, Or.inl ⟨rfl, rfl⟩⟩
  · intro e he hd; exact ⟨e, he, Or.inr ⟨hd, rfl, rfl⟩⟩

theorem le_foldl_max (l : List (Nat × Nat)) (a : Nat) :
    a ≤ l.foldl (fun m e => max m (max e.1 e.2)) a := by
  induction l generalizing a with
  | nil => simp
  | cons e tl ih =>
    rw [List.foldl_cons]
    exact le_trans (Nat.le_max_left _ _) (ih _)

theorem max_le_foldl_of_mem {l : List (Nat × Nat)} {e : Nat × Nat}
    (he : e ∈ l) (a : Nat) :
    max e.1 e.2 ≤ l.foldl (fun m e => max m (max e.1 e.2)) a := by
  induction l generalizing a with
  | nil => cases he
  | cons f tl ih =>
    rw [List.foldl_cons]
    rcases List.mem_cons.mp he with rfl | he'
    · exact le_trans (Nat.le_max_right _ _) (le_foldl_max _ _)
    · exact ih he' _

theorem foldl_max_le {l : List (Nat × Nat)} {m a : Nat}
    (h : ∀ e ∈ l, max e.1 e.2 ≤ m) (ha : a ≤ m) :
    l.foldl (fun m e => max m (max e.1 e.2)) a ≤ m := by
  induction l generalizing a with
  | nil => simpa
  | cons e tl ih =>
    rw [List.foldl_cons]
    exact ih (fun f hf => h f (List.mem_cons_of_mem _ hf))
      (Nat.max_le.mpr ⟨ha, h e (List.mem_cons_self _ _)⟩)

theorem le_arrMax_of_mem {l : List (Nat × Nat)} {e : Nat × Nat}
    (he : e ∈ l) : e.1 ≤ arrMax l ∧ e.2 ≤ arrMax l := by
  have h := max_le_foldl_of_mem he 0
  exact ⟨le_trans (Nat.le_max_left _ _) h, le_trans (Nat.le_max_right _ _) h⟩

theorem arrMax_le {l : List (Nat × Nat)} {m : Nat}
    (h : ∀ e ∈ l, e.1 ≤ m ∧ e.2 ≤ m) : arrMax l ≤ m :=
  foldl_max_le (fun e he => Nat.max_le.mpr (h e he)) (Nat.zero_le m)

theorem arrMax_congr {l l' : List (Nat × Nat)}
    (h : ∀ e, e ∈ l ↔ e ∈ l') : arrMax l = arrMax l' := by
  refine Nat.le_antisymm (arrMax_le ?_) (arrMax_le ?_)
  · exact fun e he => le_arrMax_of_mem ((h e).mp he)
  · exact fun e he => le_arrMax_of_mem ((h e).mpr he)

theorem foldl_min_le (l : List (Nat × Nat)) (a : Nat) :
    l.foldl (fun m e => min m (min e.1 e.2)) a ≤ a := by
  induction l generalizing a with
  | nil => simp
  | cons e tl ih =>
    rw [List.foldl_cons]
    exact le_trans (ih _) (Nat.min_le_left _ _)

theorem foldl_min_le_of_mem {l : List (Nat × Nat)} {e : Nat × Nat}
    (he : e ∈ l) (a : Nat) :
    l.foldl (fun m e => min m (min e.1 e.2)) a ≤ min e.1 e.2 := by
  induction l generalizing a with
  | nil => cases he
  | cons f tl ih =>
    rw [List.foldl_cons]
    rcases List.mem_cons.mp he with rfl | he'
    · exact le_trans (foldl_min_le _ _) (Nat.min_le_right _ _)
    · exact ih he' _

theorem arrMin_le_of_mem {l : List (Nat × Nat)} {e : Nat × Nat}
    (he : e ∈ l) : arrMin l ≤ min e.1 e.2 := by
  match l, he with
  | f :: rest, he =>
    rcases List.mem_cons.mp he with rfl | he'
    · exact le_trans (foldl_min_le _ _) le_rfl
    · exact foldl_min_le_of_mem he' _

theorem arrMin_eq_zero {l : List (Nat × Nat)}
    (h : ∃ e ∈ l, e.1 = 0 ∨ e.2 = 0) : arrMin l = 0 := by
  rcases h with ⟨e, he, h0⟩
  have := arrMin_le_of_mem he
  rcases h0 with h0 | h0 <;> omega

theorem mem_dedupFirstSeenAux :
    ∀ (l seen : List (Nat × Nat)) (x : Nat × Nat),
      x ∈ dedupFirstSeenAux seen l ↔ x ∈ l ∧ x ∉ seen := by
  intro l
  induction l with
  | nil => intro seen x; simp [dedupFirstSeenAux]
  | cons e tl ih =>
    intro seen x
    by_cases he : e ∈ seen
    · rw [dedupFirstSeenAux, if_pos he, ih]
      simp only [List.mem_append, List.mem_singleton, List.mem_cons]
      rcases eq_or_ne x e with rfl | hxe <;> tauto
    · rw [dedupFirstSeenAux, if_neg he]
      simp only [List.mem_cons, ih, List.mem_append, List.mem_singleton]
      rcases eq_or_ne x e with rfl | hxe <;> tauto

theorem mem_dedupFirstSeen {l : List (Nat × Nat)} {x : Nat × Nat} :
    x ∈ dedupFirstSeen l ↔ x ∈ l := by
  rw [dedupFirstSeen, mem_dedupFirstSeenAux]
  simp

theorem dedupFirstSeenAux_eq_self :
    ∀ (l seen : List (Nat × Nat)), l.Nodup → (∀ x ∈ l, x ∉ seen) →
      dedupFirstSeenAux seen l = l := by
  intro l
  induction l with
  | nil => intro seen _ _; rfl
  | cons e tl ih =>
    intro seen hnd hdisj
    rw [dedupFirstSeenAux, if_neg (hdisj e (List.mem_cons_self _ _))]
    rcases List.nodup_cons.mp hnd with ⟨hne, hnd'⟩
    rw [ih (seen ++ [e]) hnd']
    intro x hx
    simp only [List.mem_append, List.mem_singleton]
    rintro (hs | rfl)
    · exact hdisj x (List.mem_cons_of_mem _ hx) hs
    · exact hne hx

theorem uniqueArrayRows_aux :
    ∀ (suf pre : List (Nat × Nat)),
      ((List.range suf.length).filter
          (fun i => !((pre ++ suf.take i).contains (suf.getD i (0, 0))))).map
        (fun i => suf.getD i (0, 0)) = dedupFirstSeenAux pre suf := by
  intro suf
  induction suf with
  | nil => intro pre; simp [dedupFirstSeenAux]
  | cons x xs ih =>
    intro pre
    have hfilt :
        (List.range xs.length).filter
            ((fun i =>
              !((pre ++ (x :: xs).take i).contains
                  ((x :: xs).getD i (0, 0)))) ∘ Nat.succ) =
        (List.range xs.length).filter
            (fun i =>
              !(((pre ++ [x]) ++ xs.take i).contains (xs.getD i (0, 0)))) := by
      refine List.filter_congr (fun i _ => ?_)
      simp only [Function.comp_apply, Nat.succ_eq_add_one,
        List.take_succ_cons, List.getD_cons_succ, List.append_assoc,
        List.singleton_append]
    have hmain :
        ((List.range xs.length).filter
            ((fun i =>
              !((pre ++ (x :: xs).take i).contains
                  ((x :: xs).getD i (0, 0)))) ∘ Nat.succ)).map
          ((fun i => (x :: xs).getD i (0, 0)) ∘ Nat.succ) =
        dedupFirstSeenAux (pre ++ [x]) xs := by
      rw [hfilt]
      rw [List.map_congr_left (fun i _ => ?_), ih (pre ++ [x])]
      simp only [Function.comp_apply, Nat.succ_eq_add_one,
        List.getD_cons_succ]
    rw [List.length_cons, List.range_succ_eq_map, List.filter_cons]
    by_cases hx : x ∈ pre
    · have hpc : (!((pre ++ (x :: xs).take 0).contains
          ((x :: xs).getD 0 (0, 0)))) = false := by
        simp only [List.take_zero, List.append_nil, List.getD_cons_zero,
          Bool.not_eq_false']
        exact contains_iff_mem.mpr hx
      rw [hpc]
      simp only [Bool.false_eq_true, if_false, List.filter_map,
        List.map_map, hmain]
      rw [dedupFirstSeenAux, if_pos hx]
    · have hpc : (!((pre ++ (x :: xs).take 0).contains
          ((x :: xs).getD 0 (0, 0)))) = true := by
        simp only [List.take_zero, List.append_nil, List.getD_cons_zero,
          Bool.not_eq_true']
        exact Bool.eq_false_iff.mpr (fun hc => hx (contains_iff_mem.mp hc))
      rw [hpc]
      simp only [if_true, List.filter_map, List.map_map, List.map_cons,
        List.getD_cons_zero, hmain]
      rw [dedupFirstSeenAux, if_neg hx]

theorem uniqueArrayRows_eq_dedupFirstSeen (l : List (Nat × Nat)) :
    uniqueArrayRows l = dedupFirstSeen l := by
  have h := uniqueArrayRows_aux l []
  simpa [uniqueArrayRows, dedupFirstSeen] using h

theorem mem_uniqueArrayRows {l : List (Nat × Nat)} {x : Nat × Nat} :
    x ∈ uniqueArrayRows l ↔ x ∈ l := by
  rw [uniqueArrayRows_eq_dedupFirstSeen]
  exact mem_dedupFirstSeen

theorem uniqueArrayRows_eq_self {l : List (Nat × Nat)} (h : l.Nodup) :
    uniqueArrayRows l = l := by
  rw [uniqueArrayRows_eq_dedupFirstSeen, dedupFirstSeen]
  exact dedupFirstSeenAux_eq_self l [] h (by simp)

theorem Graph.init_ok {d : Bool} {arr : List (Nat × Nat)} {g : Graph}
    (h : Graph.init d arr = .ok g) :
    g.directed = d ∧ g.adjacency_array = uniqueArrayRows arr ∧
      g.adjacency_list =
        getAdjacencyList d (uniqueArrayRows arr)
          (arrMax (uniqueArrayRows arr) + 1) := by
  rw [Graph.init] at h
  split_ifs at h
  cases h
  exact ⟨rfl, rfl, rfl⟩

theorem Graph.init_eq_ok {d : Bool} {arr : List (Nat × Nat)}
    (h1 : arr.length ≠ 0) (h2 : arrMin arr = 0) :
    Graph.init d arr =
      .ok { directed := d, adjacency_array := uniqueArrayRows arr,
            adjacency_list :=
              getAdjacencyList d (uniqueArrayRows arr)
                (arrMax (uniqueArrayRows arr) + 1) } := by
  rw [Graph.init, if_neg h1, if_neg (by simp [h2])]

theorem findPathAux_self (adj : List (List Nat)) (nv fuel : Nat) (v : Int)
    (path : List Int) :
    findPathAux adj nv (fuel + 1) v v path = some (path ++ [v]) := by
  simp [findPathAux]

theorem findAllPathsAux_self (adj : List (List Nat)) (nv fuel : Nat)
    (v : Int) (path : List Int) :
    findAllPathsAux adj nv (fuel + 1) v v path = [path ++ [v]] := by
  simp [findAllPathsAux]

theorem findShortestPathAux_self (adj : List (List Nat)) (nv fuel : Nat)
    (v : Int) (path : List Int) :
    findShortestPathAux adj nv (fuel + 1) v v path = some (path ++ [v]) := by
  simp [findShortestPathAux]

/-- C10: on every graph and every integer `v` — in range or not — the three
path searches applied to `(v, v)` return the single-vertex path, because the
`start == end` test precedes the range check. -/
theorem menpo_c10_self_path (g : Graph) (v : Int) :
    g.find_path v v = some [v] ∧ g.find_all_paths v v = [[v]] ∧
      g.find_shortest_path v v = some [v] :=
  ⟨findPathAux_self g.adjacency_list g.n_vertices (g.n_vertices + 1) v [],
   findAllPathsAux_self g.adjacency_list g.n_vertices (g.n_vertices + 1) v [],
   findShortestPathAux_self g.adjacency_list g.n_vertices
     (g.n_vertices + 1) v []⟩

/-- The concrete undirected EdgeSet of the spec's scenario (§8). -/
def edges9 : List (Nat × Nat) :=
  [(0, 1), (0, 2), (1, 2), (1, 3), (2, 4), (3, 4), (3, 5)]

/-- The undirected graph built from `edges9`. -/
def g9 : Graph := (Graph.init false edges9).toOption.getD ⟨false, [], []⟩

/-- C9 counterexample: on the spec's own scenario graph the number of simple
paths from 0 to 4 is 4 (`[0,1,2,4]`, `[0,1,3,4]`, `[0,2,1,3,4]`, `[0,2,4]`),
not 2 as the claim states. -/
theorem menpo_c9_n_paths_counterexample :
    Graph.init false edges9 = Except.ok g9 ∧ g9.n_paths 0 4 ≠ 2 :=
  ⟨rfl, by decide⟩

/-- C9 (amended): the scenario graph has a cycle, its shortest 0→5 path is
`[0,1,3,5]`, and `n_paths(0,4)` is 4. -/
theorem menpo_c9_scenario :
    Graph.init false edges9 = Except.ok g9 ∧ g9.has_cycles = true ∧
      g9.find_shortest_path 0 5 = some [0, 1, 3, 5] ∧ g9.n_paths 0 4 = 4 :=
  ⟨rfl, by decide, by decide, by decide⟩

/-- A directed EdgeSet that is a DAG with `V - 1` edges but is disconnected:
vertices `{0,1,2}` carry an (undirected) triangle, vertices `{3,4}` hang
separately, and with `V = 5`, `E = 4 = V - 1`. -/
def edgesC1 : List (Nat × Nat) := [(0, 1), (1, 2), (0, 2), (3, 4)]

/-- The directed graph built from `edgesC1`. -/
def gC1 : Graph := (Graph.init true edgesC1).toOption.getD ⟨true, [], []⟩

/-- C1: `is_tree()` is not sufficient for single-tree connectivity on
directed graphs: `edgesC1` passes the directed-DFS cycle check (it is a DAG)
and has `V - 1` edges, so `is_tree()` returns true and the `Tree` constructor
accepts it, yet vertex 3 is not even weakly connected to vertex 0 — the graph
is not a single connected tree. -/
theorem menpo_c1_is_tree_disconnected :
    Graph.init true edgesC1 = Except.ok gC1 ∧
      gC1.adjacency_array = edgesC1 ∧ gC1.is_tree = true ∧
      (Tree.init edgesC1 0).isOk = true ∧ ¬ ReachU edgesC1 0 3 := by
  refine ⟨rfl, rfl, by decide, by decide, fun h => ?_⟩
  have key : ∀ b, ReachU edgesC1 0 b → b = 0 ∨ b = 1 ∨ b = 2 := by
    intro b hb
    induction hb with
    | refl => exact Or.inl rfl
    | tail hr hadj ih =>
      rcases hadj with hm | hm <;>
        simp only [edgesC1, List.mem_cons, Prod.mk.injEq,
          List.not_mem_nil, or_false] at hm <;> omega
  have h3 := key 3 h
  omega

/-- The graph accepted from the single self-loop edge `[[0, 0]]`. -/
def gC4 : Graph := (Graph.init false [(0, 0)]).toOption.getD ⟨false, [], []⟩

/-- C4 counterexample: `[[0, 0]]` is accepted by construction (non-empty, two
columns, minimum index 0) but yields `n_vertices = 1 < 2`. -/
theorem menpo_c4_self_loop_counterexample :
    Graph.init false [(0, 0)] = Except.ok gC4 ∧ gC4.n_vertices = 1 ∧
      ¬ 2 ≤ gC4.n_vertices :=
  ⟨rfl, rfl, by decide⟩

/-- C4 (amended): for every accepted EdgeSet, `n_vertices` equals the maximum
vertex index of the input plus one, hence is at least 1; it is at least 2
whenever some edge has two distinct endpoints (the self-loop-only case is the
only way to get `n_vertices = 1`). -/
theorem menpo_c4_n_vertices {d : Bool} {arr : List (Nat × Nat)} {g : Graph}
    (h : Graph.init d arr = .ok g) :
    g.n_vertices = arrMax arr + 1 ∧ 1 ≤ g.n_vertices ∧
      ((∃ e ∈ arr, e.1 ≠ e.2) → 2 ≤ g.n_vertices) := by
  rcases Graph.init_ok h with ⟨-, h2, -⟩
  have hm : arrMax (uniqueArrayRows arr) = arrMax arr :=
    arrMax_congr (fun e => mem_uniqueArrayRows)
  refine ⟨by rw [Graph.n_vertices, h2, hm], by simp [Graph.n_vertices], ?_⟩
  rintro ⟨e, he, hne⟩
  have hle := le_arrMax_of_mem he
  rw [Graph.n_vertices, h2, hm]
  omega

/-- The graph built from the single ordinary edge `[[0, 1]]`. -/
def gC4w : Graph := (Graph.init false [(0, 1)]).toOption.getD ⟨false, [], []⟩

/-- Witness for the amended C4 at the concrete input `[[0, 1]]`. -/
theorem menpo_c4_witness :
    Graph.init false [(0, 1)] = Except.ok gC4w ∧
      (gC4w.n_vertices = arrMax [(0, 1)] + 1 ∧ 1 ≤ gC4w.n_vertices ∧
        ((∃ e ∈ [(0, 1)], e.1 ≠ e.2) → 2 ≤ gC4w.n_vertices)) :=
  ⟨rfl, menpo_c4_n_vertices rfl⟩

/-- A plain 3-vertex `PointDirectedGraph` (chain 0 → 1 → 2). -/
def pdC2 : PointDirectedGraph :=
  { g := (Graph.init true [(0, 1), (1, 2)]).toOption.getD ⟨true, [], []⟩,
    points := [[0], [1], [2]] }

/-- C2: for a plain directed point-graph and a correct-length mask that keeps
an edge, `from_mask` does not filter the EdgeSet as claimed: the plain mask
helper would keep `[(0, 1)]`, but the source instead reads
`pt.predecessors_list` and `pt.root_vertex` — attributes a
`PointDirectedGraph` does not have — so the call dies with `AttributeError`. -/
theorem menpo_c2_directed_from_mask_attribute_error :
    mask_adjacency_array [true, true, false] pdC2.g.adjacency_array =
        [(0, 1)] ∧
      pdC2.from_mask [true, true, false] =
        Except.error ("AttributeError: PointDirectedGraph instance has no " ++
          "attribute predecessors_list") :=
  ⟨rfl, rfl⟩

theorem Graph.adj_entries_lt {d : Bool} {arr : List (Nat × Nat)} {g : Graph}
    (h : Graph.init d arr = .ok g) :
    ∀ v x, x ∈ g.adjacency_list.getD v [] → x < g.n_vertices := by
  rcases Graph.init_ok h with ⟨-, h2, h3⟩
  intro v x hx
  rw [h3] at hx
  rcases mem_getAdjacencyList hx with ⟨e, he, hcase⟩
  have hle := le_arrMax_of_mem he
  rw [Graph.n_vertices, h2]
  rcases hcase with ⟨-, rfl⟩ | ⟨-, -, rfl⟩ <;> omega

theorem findPathAux_start_out {adj : List (List Nat)} {nv fuel : Nat}
    {start dst : Int} (hne : start ≠ dst)
    (hs : (nv : Int) - 1 < start ∨ start < 0) (path : List Int) :
    findPathAux adj nv (fuel + 1) start dst path = none := by
  simp only [findPathAux]
  rw [if_neg hne, if_pos hs]

theorem findAllPathsAux_start_out {adj : List (List Nat)} {nv fuel : Nat}
    {start dst : Int} (hne : start ≠ dst)
    (hs : (nv : Int) - 1 < start ∨ start < 0) (path : List Int) :
    findAllPathsAux adj nv (fuel + 1) start dst path = [] := by
  simp only [findAllPathsAux]
  rw [if_neg hne, if_pos hs]

theorem findShortestPathAux_start_out {adj : List (List Nat)} {nv fuel : Nat}
    {start dst : Int} (hne : start ≠ dst)
    (hs : (nv : Int) - 1 < start ∨ start < 0) (path : List Int) :
    findShortestPathAux adj nv (fuel + 1) start dst path = none := by
  simp only [findShortestPathAux]
  rw [if_neg hne, if_pos hs]

theorem findPathAux_dst_out {adj : List (List Nat)} {nv : Nat}
    (hadj : ∀ v x, x ∈ adj.getD v [] → x < nv)
    {dst : Int} (hdst : dst < 0 ∨ (nv : Int) - 1 < dst) :
    ∀ fuel (start : Int) (path : List Int), start ≠ dst →
      findPathAux adj nv fuel start dst path = none := by
  intro fuel
  induction fuel with
  | zero => intro start path _; rfl
  | succ f ih =>
    intro start path hne
    simp only [findPathAux]
    rw [if_neg hne]
    by_cases hs : (nv : Int) - 1 < start ∨ start < 0
    · rw [if_pos hs]
    · rw [if_neg hs]
      refine List.findSome?_eq_none_iff.mpr (fun v hv => ?_)
      rcases List.mem_map.mp hv with ⟨x, hx, rfl⟩
      have hxlt := hadj _ _ hx
      by_cases hmem : Int.ofNat x ∈ path ++ [start]
      · rw [if_pos hmem]
      · have hne' : Int.ofNat x ≠ dst := by
            simp only [Int.ofNat_eq_coe]
            rcases hdst with h | h <;> omega
        rw [if_neg hmem, ih _ _ hne']

theorem findAllPathsAux_dst_out {adj : List (List Nat)} {nv : Nat}
    (hadj : ∀ v x, x ∈ adj.getD v [] → x < nv)
    {dst : Int} (hdst : dst < 0 ∨ (nv : Int) - 1 < dst) :
    ∀ fuel (start : Int) (path : List Int), start ≠ dst →
      findAllPathsAux adj nv fuel start dst path = [] := by
  intro fuel
  induction fuel with
  | zero => intro start path _; rfl
  | succ f ih =>
    intro start path hne
    simp only [findAllPathsAux]
    rw [if_neg hne]
    by_cases hs : (nv : Int) - 1 < start ∨ start < 0
    · rw [if_pos hs]
    · rw [if_neg hs]
      have hgen : ∀ (L : List Int),
          (∀ v ∈ L, ∃ x : Nat, x < nv ∧ v = Int.ofNat x) →
          ∀ acc : List (List Int),
            L.foldl
              (fun acc v =>
                if v ∈ path ++ [start] then acc
                else acc ++ findAllPathsAux adj nv f v dst (path ++ [start]))
              acc = acc := by
        intro L
        induction L with
        | nil => intro _ acc; rfl
        | cons v tl ihL =>
          intro hL acc
          rw [List.foldl_cons]
          rcases hL v (List.mem_cons_self _ _) with ⟨x, hx, rfl⟩
          by_cases hmem : Int.ofNat x ∈ path ++ [start]
          · rw [if_pos hmem]
            exact ihL (fun w hw => hL w (List.mem_cons_of_mem _ hw)) acc
          · have hne' : Int.ofNat x ≠ dst := by
              simp only [Int.ofNat_eq_coe]
              rcases hdst with h | h <;> omega
            rw [if_neg hmem, ih _ _ hne', List.append_nil]
            exact ihL (fun w hw => hL w (List.mem_cons_of_mem _ hw)) acc
      refine hgen _ (fun v hv => ?_) []
      rcases List.mem_map.mp hv with ⟨x, hx, rfl⟩
      exact ⟨x, hadj _ _ hx, rfl⟩

theorem findShortestPathAux_dst_out {adj : List (List Nat)} {nv : Nat}
    (hadj : ∀ v x, x ∈ adj.getD v [] → x < nv)
    {dst : Int} (hdst : dst < 0 ∨ (nv : Int) - 1 < dst) :
    ∀ fuel (start : Int) (path : List Int), start ≠ dst →
      findShortestPathAux adj nv fuel start dst path = none := by
  intro fuel
  induction fuel with
  | zero => intro start path _; rfl
  | succ f ih =>
    intro start path hne
    simp only [findShortestPathAux]
    rw [if_neg hne]
    by_cases hs : (nv : Int) - 1 < start ∨ start < 0
    · rw [if_pos hs]
    · rw [if_neg hs]
      have hgen : ∀ (L : List Int),
          (∀ v ∈ L, ∃ x : Nat, x < nv ∧ v = Int.ofNat x) →
          ∀ sh : Option (List Int),
            L.foldl
              (fun shortest v =>
                if v ∈ path ++ [start] then shortest
                else
                  let np := findShortestPathAux adj nv f v dst
                    (path ++ [start])
                  if optTruthy np = true then
                    if optTruthy shortest = false ∨
                        (np.getD []).length <
                          (shortest.getD []).length then np
                    else shortest
                  else shortest)
              sh = sh := by
        intro L
        induction L with
        | nil => intro _ sh; rfl
        | cons v tl ihL =>
          intro hL sh
          rw [List.foldl_cons]
          rcases hL v (List.mem_cons_self _ _) with ⟨x, hx, rfl⟩
          by_cases hmem : Int.ofNat x ∈ path ++ [start]
          · rw [if_pos hmem]
            exact ihL (fun w hw => hL w (List.mem_cons_of_mem _ hw)) sh
          · have hne' : Int.ofNat x ≠ dst := by
              simp only [Int.ofNat_eq_coe]
              rcases hdst with h | h <;> omega
            rw [if_neg hmem]
            simp only [ih _ _ hne', optTruthy, Bool.false_eq_true, if_false]
            exact ihL (fun w hw => hL w (List.mem_cons_of_mem _ hw)) sh
      refine hgen _ (fun v hv => ?_) none
      rcases List.mem_map.mp hv with ⟨x, hx, rfl⟩
      exact ⟨x, hadj _ _ hx, rfl⟩

/-- The 2-vertex graph for the C3 counterexample. -/
def gC3 : Graph := (Graph.init false [(0, 1)]).toOption.getD ⟨false, [], []⟩

/-- The 2-vertex graph for the C3 witness. -/
def gC3w : Graph := (Graph.init false [(0, 1)]).toOption.getD ⟨false, [], []⟩

/-- C3 counterexample: on the 2-vertex graph from `[[0, 1]]`, a top-level
call with the out-of-range start 5 returns "no result" (`None` / `[]`)
from all three path searches — no range error is raised at the top level
(the searches have no error path at all; `_check_vertex` is never called). -/
theorem menpo_c3_no_range_error_counterexample :
    Graph.init false [(0, 1)] = Except.ok gC3 ∧
      gC3.find_path 5 0 = none ∧ gC3.find_all_paths 5 0 = [] ∧
      gC3.find_shortest_path 5 0 = none :=
  ⟨rfl, by decide, by decide, by decide⟩

/-- C3 (amended): for every constructed graph, an out-of-range start *or*
end (with `start ≠ end`) makes `find_path`, `find_all_paths` and
`find_shortest_path` return "no result" — at the top-level call exactly as
mid-recursion; no range error is raised. -/
theorem menpo_c3_out_of_range_no_result {d : Bool} {arr : List (Nat × Nat)}
    {g : Graph} (h : Graph.init d arr = .ok g) {s e : Int}
    (hout : s < 0 ∨ (g.n_vertices : Int) - 1 < s ∨ e < 0 ∨
      (g.n_vertices : Int) - 1 < e)
    (hne : s ≠ e) :
    g.find_path s e = none ∧ g.find_all_paths s e = [] ∧
      g.find_shortest_path s e = none := by
  have hadj := Graph.adj_entries_lt h
  by_cases hs : (g.n_vertices : Int) - 1 < s ∨ s < 0
  · exact ⟨findPathAux_start_out hne hs [],
      findAllPathsAux_start_out hne hs [],
      findShortestPathAux_start_out hne hs []⟩
  · have he : e < 0 ∨ (g.n_vertices : Int) - 1 < e := by tauto
    exact ⟨findPathAux_dst_out hadj he _ s [] hne,
      findAllPathsAux_dst_out hadj he _ s [] hne,
      findShortestPathAux_dst_out hadj he _ s [] hne⟩

/-- Witness for the amended C3: out-of-range start 5 and in-range end 0 on
the graph from `[[0, 1]]`. -/
theorem menpo_c3_witness :
    Graph.init false [(0, 1)] = Except.ok gC3w ∧
      ((5 : Int) < 0 ∨ (gC3w.n_vertices : Int) - 1 < 5 ∨ (0 : Int) < 0 ∨
        (gC3w.n_vertices : Int) - 1 < 0) ∧ (5 : Int) ≠ 0 ∧
      (gC3w.find_path 5 0 = none ∧ gC3w.find_all_paths 5 0 = [] ∧
        gC3w.find_shortest_path 5 0 = none) :=
  ⟨rfl, by decide, by decide,
    menpo_c3_out_of_range_no_result
      (show Graph.init false [(0, 1)] = Except.ok gC3w from rfl)
      (by decide) (by decide)⟩

/-- C8: the adjacency array stored by graph construction is exactly the
input's rows deduplicated in first-seen order (each unique row kept at its
lowest original index, survivors in input order): the numpy
first-occurrence-index selection of `_unique_array_rows` coincides with the
specification's first-seen scan. -/
theorem menpo_c8_unique_rows {d : Bool} {arr : List (Nat × Nat)} {g : Graph}
    (h : Graph.init d arr = .ok g) :
    g.adjacency_array = dedupFirstSeen arr := by
  rcases Graph.init_ok h with ⟨-, h2, -⟩
  rw [h2, uniqueArrayRows_eq_dedupFirstSeen]

/-- The graph built from an input with duplicated rows. -/
def gC8 : Graph :=
  (Graph.init true [(0, 1), (0, 1), (1, 0), (0, 1), (1, 2)]).toOption.getD
    ⟨true, [], []⟩

/-- Witness for C8 on an input with duplicate rows in both orientations. -/
theorem menpo_c8_witness :
    Graph.init true [(0, 1), (0, 1), (1, 0), (0, 1), (1, 2)] =
        Except.ok gC8 ∧
      gC8.adjacency_array =
        dedupFirstSeen [(0, 1), (0, 1), (1, 0), (0, 1), (1, 2)] :=
  ⟨rfl, menpo_c8_unique_rows rfl⟩

/-- A 2-vertex directed point-graph for the C6 counterexample. -/
def pdC6 : PointDirectedGraph :=
  { g := (Graph.init true [(0, 1)]).toOption.getD ⟨true, [], []⟩,
    points := [[0], [1]] }

/-- C6 counterexample: the mask `[False, True]` has correct length and
removes all edges of `pdC6`, but `PointDirectedGraph.from_mask` fails with
the modelled `AttributeError` (the source reads the nonexistent
`predecessors_list` attribute), not with the claimed validation error. -/
theorem menpo_c6_directed_error_counterexample :
    pdC6.from_mask [false, true] =
        Except.error ("AttributeError: PointDirectedGraph instance has no " ++
          "attribute predecessors_list") ∧
      pdC6.from_mask [false, true] ≠
        Except.error ("The provided mask deletes all edges.") := by
  refine ⟨rfl, fun h => ?_⟩
  rw [show pdC6.from_mask [false, true] =
    Except.error ("AttributeError: PointDirectedGraph instance has no " ++
      "attribute predecessors_list") from rfl] at h
  injection h with h
  exact absurd h (by decide)

/-- C6 (amended): for each point-graph class and a mask of correct length,
an all-true mask returns the instance unchanged (`.ok pg` — in particular
the same edge count and point count), and a mask that removes all edges
fails with the validation error for `PointUndirectedGraph` and `PointTree`
(for a plain `PointDirectedGraph` that branch instead dies with
`AttributeError`, see the counterexample).  The embedding is pure, so the
original instance is unchanged in every case, mirroring the source's
copy-on-mask discipline. -/
theorem menpo_c6_mask_transactions (pu : PointUndirectedGraph)
    (pt : PointTree) (pd : PointDirectedGraph) (mu mt md : List Bool)
    (hu : mu.length = pu.points.length) (ht : mt.length = pt.points.length)
    (hd : md.length = pd.points.length) :
    (mu.all (fun b => b) = true → pu.from_mask mu = .ok pu) ∧
      (mt.all (fun b => b) = true → pt.from_mask mt = .ok pt) ∧
      (md.all (fun b => b) = true → pd.from_mask md = .ok pd) ∧
      (mu.all (fun b => b) = false →
        mask_adjacency_array mu pu.g.adjacency_array = [] →
        pu.from_mask mu = .error ("The provided mask deletes all edges.")) ∧
      (mt.all (fun b => b) = false →
        mask_adjacency_array_tree mt pt.t.g.adjacency_array
            pt.t.g.adjacency_list pt.t.predecessors_list
            pt.t.root_vertex = [] →
        pt.from_mask mt = .error ("The provided mask deletes all edges.")) := by
  refine ⟨?_, ?_, ?_, ?_, ?_⟩
  · intro hall
    rw [PointUndirectedGraph.from_mask, if_neg (fun hh => hh hu),
      if_pos hall]
  · intro hall
    rw [PointTree.from_mask, if_neg (fun hh => hh ht), if_pos hall]
  · intro hall
    rw [PointDirectedGraph.from_mask, if_neg (fun hh => hh hd),
      if_pos hall]
  · intro hallf hmask
    rw [PointUndirectedGraph.from_mask, if_neg (fun hh => hh hu),
      if_neg (by simp [hallf])]
    simp [hmask]
  · intro hallf hmask
    rw [PointTree.from_mask, if_neg (fun hh => hh ht),
      if_neg (by simp [hallf])]
    simp [hmask]

/-- A 2-vertex undirected point-graph for the C6 witness. -/
def puC6w : PointUndirectedGraph :=
  { g := (Graph.init false [(0, 1)]).toOption.getD ⟨false, [], []⟩,
    points := [[0], [1]] }

/-- A 2-vertex point-tree for the C6 witness. -/
def ptC6w : PointTree :=
  { t := (Tree.init [(0, 1)] 0).toOption.getD ⟨⟨true, [], []⟩, 0, []⟩,
    points := [[0], [1]] }

/-- A 2-vertex directed point-graph for the C6 witness. -/
def pdC6w : PointDirectedGraph :=
  { g := (Graph.init true [(0, 1)]).toOption.getD ⟨true, [], []⟩,
    points := [[0], [1]] }

/-- Witness for the amended C6 at concrete instances and masks. -/
theorem menpo_c6_witness :
    ([false, true].length = puC6w.points.length ∧
        [false, true].length = ptC6w.points.length ∧
        [true, true].length = pdC6w.points.length) ∧
      (([false, true].all (fun b => b) = true →
          puC6w.from_mask [false, true] = .ok puC6w) ∧
        ([false, true].all (fun b => b) = true →
          ptC6w.from_mask [false, true] = .ok ptC6w) ∧
        ([true, true].all (fun b => b) = true →
          pdC6w.from_mask [true, true] = .ok pdC6w) ∧
        ([false, true].all (fun b => b) = false →
          mask_adjacency_array [false, true] puC6w.g.adjacency_array = [] →
          puC6w.from_mask [false, true] =
            .error ("The provided mask deletes all edges.")) ∧
        ([false, true].all (fun b => b) = false →
          mask_adjacency_array_tree [false, true] ptC6w.t.g.adjacency_array
              ptC6w.t.g.adjacency_list ptC6w.t.predecessors_list
              ptC6w.t.root_vertex = [] →
          ptC6w.from_mask [false, true] =
            .error ("The provided mask deletes all edges."))) :=
  ⟨⟨by decide, by decide, by decide⟩,
    menpo_c6_mask_transactions puC6w ptC6w pdC6w [false, true] [false, true]
      [true, true] (by decide) (by decide) (by decide)⟩

/-- Iterated predecessor lookup (specification-side): `predIter k v` follows
the predecessor list `k` steps from `v`, `none` if the chain breaks.  A valid
rooted tree is one whose every vertex reaches the root this way. -/
def predIter (pred : List (Option Nat)) : Nat → Nat → Option Nat
  | 0, v => some v
  | k + 1, v =>
    match pred.getD v none with
    | none => none
    | some p => predIter pred k p

theorem depthLoop_unfold (pred : List (Option Nat)) (root fuel parent depth :
    Nat) :
    depthLoop pred root fuel parent depth =
      if parent = root then some depth
      else
        match fuel with
        | 0 => none
        | f + 1 =>
          match pred.getD parent none with
          | none => none
          | some p => depthLoop pred root f p (depth + 1) := by
  cases fuel <;> rfl

theorem depthLoop_eq {pred : List (Option Nat)} {root : Nat} :
    ∀ (k v d fuel : Nat), k ≤ fuel →
      predIter pred k v = some root →
      (∀ j, j < k → predIter pred j v ≠ some root) →
      depthLoop pred root fuel v d = some (d + k) := by
  intro k
  induction k with
  | zero =>
    intro v d fuel _ hit _
    have hv : v = root := by
      rw [predIter] at hit
      exact Option.some.inj hit
    subst hv
    rw [depthLoop_unfold, if_pos rfl]
    rfl
  | succ k ih =>
    intro v d fuel hk hit hmin
    have hvne : v ≠ root := by
      intro hv
      exact hmin 0 (Nat.succ_pos k) (by rw [predIter, hv])
    match fuel, hk with
    | f + 1, hk =>
      rw [predIter] at hit
      cases hp : pred.getD v none with
      | none => rw [hp] at hit; cases hit
      | some p =>
        rw [hp] at hit
        have hit' : predIter pred k p = some root := hit
        have hmin' : ∀ j, j < k → predIter pred j p ≠ some root := by
          intro j hj hcon
          refine hmin (j + 1) (by omega) ?_
          rw [predIter, hp]
          exact hcon
        have hrec := ih p (d + 1) f (by omega) hit' hmin'
        rw [depthLoop_unfold, if_neg hvne]
        show (match pred.getD v none with
              | none => none
              | some p => depthLoop pred root f p (d + 1)) = some (d + (k + 1))
        rw [hp]
        show depthLoop pred root f p (d + 1) = some (d + (k + 1))
        rw [hrec]
        congr 1
        omega

/-- C7: on every valid rooted tree (root in range, predecessor entries in
range, every vertex reaching the root along the predecessor chain in fewer
than `n_vertices` steps), `depth_of_vertex(root) = 0` and every non-root
vertex satisfies `depth_of_vertex(v) = depth_of_vertex(parent(v)) + 1`. -/
theorem menpo_c7_depth_recurrence (t : Tree)
    (hroot : t.root_vertex < t.g.n_vertices)
    (hpred : ∀ v q, t.predecessors_list.getD v none = some q →
      q < t.g.n_vertices)
    (hval : ∀ v, v < t.g.n_vertices →
      ∃ k, k < t.g.n_vertices ∧
        predIter t.predecessors_list k v = some t.root_vertex) :
    t.depth_of_vertex t.root_vertex = .ok 0 ∧
      ∀ v, v < t.g.n_vertices → v ≠ t.root_vertex →
        ∃ p d, t.parent v = .ok (some p) ∧
          t.depth_of_vertex p = .ok d ∧
          t.depth_of_vertex v = .ok (d + 1) := by
  constructor
  · rw [Tree.depth_of_vertex, if_neg (by omega)]
    have hdl : depthLoop t.predecessors_list t.root_vertex t.g.n_vertices
        t.root_vertex 0 = some 0 := by
      rw [depthLoop_unfold, if_pos rfl]
    rw [hdl]
  · intro v hv hvne
    have hex : ∃ k, predIter t.predecessors_list k v = some t.root_vertex := by
      rcases hval v hv with ⟨k, -, hk⟩
      exact ⟨k, hk⟩
    have hspec := Nat.find_spec hex
    have hkm_lt : Nat.find hex < t.g.n_vertices := by
      rcases hval v hv with ⟨k, hklt, hk⟩
      exact Nat.lt_of_le_of_lt (Nat.find_min' hex hk) hklt
    have hkm_pos : 0 < Nat.find hex := by
      rcases Nat.eq_zero_or_pos (Nat.find hex) with h0 | h0
      · rw [h0] at hspec
        rw [predIter] at hspec
        exact absurd (Option.some.inj hspec) hvne
      · exact h0
    obtain ⟨j, hj⟩ : ∃ j, Nat.find hex = j + 1 :=
      ⟨Nat.find hex - 1, by omega⟩
    rw [hj] at hspec
    rw [predIter] at hspec
    cases hp : t.predecessors_list.getD v none with
    | none => rw [hp] at hspec; cases hspec
    | some p =>
      rw [hp] at hspec
      have hspec' : predIter t.predecessors_list j p = some t.root_vertex :=
        hspec
      have hplt : p < t.g.n_vertices := hpred v p hp
      have hminv := fun m hm => Nat.find_min hex (m := m) hm
      have hminp : ∀ m, m < j →
          predIter t.predecessors_list m p ≠ some t.root_vertex := by
        intro m hm hcon
        refine hminv (m + 1) (by omega) ?_
        rw [predIter, hp]
        exact hcon
      refine ⟨p, j, ?_, ?_, ?_⟩
      · rw [Tree.parent, if_neg (by omega), hp]
      · rw [Tree.depth_of_vertex, if_neg (by omega)]
        rw [depthLoop_eq j p 0 t.g.n_vertices (by omega) hspec' hminp]
        simp
      · rw [Tree.depth_of_vertex, if_neg (by omega)]
        have hminv' : ∀ m, m < j + 1 →
            predIter t.predecessors_list m v ≠ some t.root_vertex := by
          intro m hm
          exact hminv m (by omega)
        have hitv : predIter t.predecessors_list (j + 1) v =
            some t.root_vertex := by
          rw [predIter, hp]
          exact hspec'
        rw [depthLoop_eq (j + 1) v 0 t.g.n_vertices (by omega) hitv hminv']
        simp

/-- The concrete tree `[[0,1],[0,2]]` rooted at 0 for the C7 witness. -/
def tC7 : Tree :=
  (Tree.init [(0, 1), (0, 2)] 0).toOption.getD ⟨⟨true, [], []⟩, 0, []⟩

/-- Witness for C7 on the concrete 3-vertex tree. -/
theorem menpo_c7_witness :
    Tree.init [(0, 1), (0, 2)] 0 = Except.ok tC7 ∧
      (tC7.depth_of_vertex tC7.root_vertex = .ok 0 ∧
        ∀ v, v < tC7.g.n_vertices → v ≠ tC7.root_vertex →
          ∃ p d, tC7.parent v = .ok (some p) ∧
            tC7.depth_of_vertex p = .ok d ∧
            tC7.depth_of_vertex v = .ok (d + 1)) := by
  refine ⟨rfl, menpo_c7_depth_recurrence tC7 (by decide) ?_ ?_⟩
  · intro v q h
    rw [show tC7.g.n_vertices = 3 from rfl]
    rw [show tC7.predecessors_list = [none, some 0, some 0] from rfl] at h
    rcases v with _ | _ | _ | v <;> simp [List.getD] at h <;> omega
  · intro v hv
    have hv3 : v < 3 := hv
    interval_cases v
    · exact ⟨0, by omega, rfl⟩
    · exact ⟨1, by omega, rfl⟩
    · exact ⟨1, by omega, rfl⟩

theorem adjU_symm {T : List (Nat × Nat)} {u v : Nat} (h : adjU T u v) :
    adjU T v u :=
  h.elim Or.inr Or.inl

theorem ReachU.trans' {T : List (Nat × Nat)} {a b c : Nat}
    (h1 : ReachU T a b) (h2 : ReachU T b c) : ReachU T a c := by
  induction h2 with
  | refl => exact h1
  | tail _ hadj ih => exact ReachU.tail ih hadj

theorem ReachU.symm' {T : List (Nat × Nat)} {a b : Nat}
    (h : ReachU T a b) : ReachU T b a := by
  induction h with
  | refl => exact .refl _
  | tail _ hadj ih =>
    exact ReachU.trans' (ReachU.tail (.refl _) (adjU_symm hadj)) ih

theorem touches_iff {v : Nat} {e : Nat × Nat} :
    touches v e = true ↔ (e.1 = v ∨ e.2 = v) := by
  simp [touches]

theorem not_touches_iff {v : Nat} {e : Nat × Nat} :
    (!touches v e) = true ↔ (e.1 ≠ v ∧ e.2 ≠ v) := by
  simp [touches, not_or]

theorem mem_take_of_le {α : Type} {l : List α} {m n : Nat} {x : α}
    (h : m ≤ n) (hx : x ∈ l.take m) : x ∈ l.take n := by
  rw [show n = m + (n - m) by omega, List.take_add]
  exact List.mem_append_left _ hx

/-- Loop invariant for `_correct_tree_edges`' BFS over a spanning edge set
`T` of the vertices `0..nv-1`, rooted at `r`.  `D` is the list of popped
vertices, `Q` the queue, `P` the remaining pool, `O` the oriented output. -/
structure BfsInv (T : List (Nat × Nat)) (r nv : Nat) (D Q : List Nat)
    (P O : List (Nat × Nat)) : Prop where
  subT : ∀ e ∈ P, e ∈ T
  disc : D ++ Q = r :: O.map Prod.snd
  pool1 : ∀ e ∈ P, e.1 ∉ D
  pool2 : ∀ e ∈ P, e.2 ∉ D
  comp : ∀ e ∈ T, e.1 ∉ D → e.2 ∉ D → e ∈ P
  cls1 : ∀ e ∈ T, e.1 ∈ D → e.2 ∈ D ∨ e.2 ∈ Q
  cls2 : ∀ e ∈ T, e.2 ∈ D → e.1 ∈ D ∨ e.1 ∈ Q
  bnd : ∀ v, (v ∈ D ∨ v ∈ Q) → v < nv
  cnt : O.length + P.length = T.length
  orient : ∀ pc ∈ O, pc ∈ T ∨ (pc.2, pc.1) ∈ T
  parEarly : ∀ i (h : i < O.length),
    (O.get ⟨i, h⟩).1 ∈ (r :: O.map Prod.snd).take (i + 1)

theorem bfs_step {T : List (Nat × Nat)} {r nv : Nat} {D Q : List Nat}
    {P O : List (Nat × Nat)} {v : Nat}
    (hT : ∀ e ∈ T, e.1 < nv ∧ e.2 < nv)
    (inv : BfsInv T r nv D (v :: Q) P O) :
    BfsInv T r nv (D ++ [v])
      (Q ++ (P.filter (fun e => touches v e)).map (otherEnd v))
      (P.filter (fun e => !touches v e))
      (O ++ ((P.filter (fun e => touches v e)).map (otherEnd v)).map
        (fun c => (v, c))) := by
  have hchild : ∀ c, c ∈ (P.filter (fun e => touches v e)).map (otherEnd v) ↔
      ∃ e, e ∈ P ∧ (e.1 = v ∨ e.2 = v) ∧ otherEnd v e = c := by
    intro c
    constructor
    · intro hc
      rcases List.mem_map.mp hc with ⟨e, he, rfl⟩
      rcases List.mem_filter.mp he with ⟨heP, ht⟩
      exact ⟨e, heP, touches_iff.mp ht, rfl⟩
    · rintro ⟨e, heP, ht, rfl⟩
      exact List.mem_map.mpr ⟨e,
        List.mem_filter.mpr ⟨heP, touches_iff.mpr ht⟩, rfl⟩
  have hlenD : D.length ≤ O.length := by
    have := congrArg List.length inv.disc
    simp only [List.length_append, List.length_cons, List.length_map] at this
    omega
  refine ⟨?_, ?_, ?_, ?_, ?_, ?_, ?_, ?_, ?_, ?_, ?_⟩
  · intro e he
    exact inv.subT e (List.mem_filter.mp he).1
  · have h1 : ((((P.filter (fun e => touches v e)).map (otherEnd v)).map
        (fun c => (v, c))).map Prod.snd) =
        (P.filter (fun e => touches v e)).map (otherEnd v) := by
      rw [List.map_map]
      exact List.map_id _
    calc (D ++ [v]) ++ (Q ++ (P.filter (fun e => touches v e)).map
          (otherEnd v))
        = (D ++ (v :: Q)) ++ (P.filter (fun e => touches v e)).map
            (otherEnd v) := by simp
      _ = (r :: O.map Prod.snd) ++ (P.filter (fun e => touches v e)).map
            (otherEnd v) := by rw [inv.disc]
      _ = r :: (O.map Prod.snd ++ (P.filter (fun e => touches v e)).map
            (otherEnd v)) := rfl
      _ = r :: (O ++ ((P.filter (fun e => touches v e)).map
            (otherEnd v)).map (fun c => (v, c))).map Prod.snd := by
          rw [List.map_append, h1]
  · intro e he
    rcases List.mem_filter.mp he with ⟨heP, hnt⟩
    rcases not_touches_iff.mp hnt with ⟨h1, -⟩
    intro hmem
    rcases List.mem_append.mp hmem with hD | hv
    · exact inv.pool1 e heP hD
    · exact h1 (List.mem_singleton.mp hv)
  · intro e he
    rcases List.mem_filter.mp he with ⟨heP, hnt⟩
    rcases not_touches_iff.mp hnt with ⟨-, h2⟩
    intro hmem
    rcases List.mem_append.mp hmem with hD | hv
    · exact inv.pool2 e heP hD
    · exact h2 (List.mem_singleton.mp hv)
  · intro e heT h1 h2
    have h1D : e.1 ∉ D := fun h => h1 (List.mem_append_left _ h)
    have h2D : e.2 ∉ D := fun h => h2 (List.mem_append_left _ h)
    have h1v : e.1 ≠ v := fun h =>
      h1 (List.mem_append_right _ (List.mem_singleton.mpr h))
    have h2v : e.2 ≠ v := fun h =>
      h2 (List.mem_append_right _ (List.mem_singleton.mpr h))
    exact List.mem_filter.mpr ⟨inv.comp e heT h1D h2D,
      not_touches_iff.mpr ⟨h1v, h2v⟩⟩
  · intro e heT hmem
    by_cases h1D : e.1 ∈ D
    · rcases inv.cls1 e heT h1D with h2 | h2
      · exact Or.inl (List.mem_append_left _ h2)
      · rcases List.mem_cons.mp h2 with h2v | h2Q
        · exact Or.inl (List.mem_append_right _ (List.mem_singleton.mpr h2v))
        · exact Or.inr (List.mem_append_left _ h2Q)
    · have h1v : e.1 = v := by
        rcases List.mem_append.mp hmem with hD | hv
        · exact absurd hD h1D
        · exact List.mem_singleton.mp hv
      by_cases heP : e ∈ P
      · refine Or.inr (List.mem_append_right _ ?_)
        refine (hchild e.2).mpr ⟨e, heP, Or.inl h1v, ?_⟩
        rw [otherEnd, if_pos h1v]
      · have h2D : e.2 ∈ D := by
          by_contra h2D
          exact heP (inv.comp e heT h1D h2D)
        exact Or.inl (List.mem_append_left _ h2D)
  · intro e heT hmem
    by_cases h2D : e.2 ∈ D
    · rcases inv.cls2 e heT h2D with h1 | h1
      · exact Or.inl (List.mem_append_left _ h1)
      · rcases List.mem_cons.mp h1 with h1v | h1Q
        · exact Or.inl (List.mem_append_right _ (List.mem_singleton.mpr h1v))
        · exact Or.inr (List.mem_append_left _ h1Q)
    · have h2v : e.2 = v := by
        rcases List.mem_append.mp hmem with hD | hv
        · exact absurd hD h2D
        · exact List.mem_singleton.mp hv
      by_cases heP : e ∈ P
      · by_cases h1v : e.1 = v
        · exact Or.inl (List.mem_append_right _ (List.mem_singleton.mpr h1v))
        · refine Or.inr (List.mem_append_right _ ?_)
          refine (hchild e.1).mpr ⟨e, heP, Or.inr h2v, ?_⟩
          rw [otherEnd, if_neg h1v]
      · have h1D : e.1 ∈ D := by
          by_contra h1D
          exact heP (inv.comp e heT h1D (h2v ▸ h2D))
        exact Or.inl (List.mem_append_left _ h1D)
  · intro w hw
    rcases hw with hw | hw
    · rcases List.mem_append.mp hw with hD | hv
      · exact inv.bnd w (Or.inl hD)
      · exact inv.bnd w (Or.inr (List.mem_cons.mpr
          (Or.inl (List.mem_singleton.mp hv))))
    · rcases List.mem_append.mp hw with hQ | hc
      · exact inv.bnd w (Or.inr (List.mem_cons_of_mem _ hQ))
      · rcases (hchild w).mp hc with ⟨e, heP, ht, rfl⟩
        have hb := hT e (inv.subT e heP)
        rw [otherEnd]
        split_ifs <;> omega
  · have hsplit := List.length_eq_length_filter_add (l := P)
      (fun e => touches v e)
    simp only at hsplit
    simp only [List.length_append, List.length_map]
    have := inv.cnt
    omega
  · intro pc hpc
    rcases List.mem_append.mp hpc with hO | hnew
    · exact inv.orient pc hO
    · rcases List.mem_map.mp hnew with ⟨c, hc, rfl⟩
      rcases (hchild c).mp hc with ⟨e, heP, ht, rfl⟩
      have heT := inv.subT e heP
      by_cases h1v : e.1 = v
      · left
        have ho : otherEnd v e = e.2 := by rw [otherEnd, if_pos h1v]
        rw [ho, ← h1v]
        exact heT
      · right
        have h2v : e.2 = v := ht.resolve_left h1v
        have ho : otherEnd v e = e.1 := by rw [otherEnd, if_neg h1v]
        show (otherEnd v e, v) ∈ T
        rw [ho, ← h2v]
        exact heT
  · intro i h
    rw [List.get_eq_getElem]
    by_cases hi : i < O.length
    · have hgl : (O ++ ((P.filter (fun e => touches v e)).map
          (otherEnd v)).map (fun c => (v, c)))[i] = O[i] :=
        List.getElem_append_left hi
      rw [hgl]
      have hold := inv.parEarly i hi
      rw [List.get_eq_getElem] at hold
      have htake : (r :: (O ++ ((P.filter (fun e => touches v e)).map
            (otherEnd v)).map (fun c => (v, c))).map Prod.snd).take (i + 1) =
          (r :: O.map Prod.snd).take (i + 1) := by
        rw [List.map_append, ← List.cons_append]
        refine List.take_append_of_le_length ?_
        simp only [List.length_cons, List.length_map]
        omega
      rw [htake]
      exact hold
    · push_neg at hi
      have hsub : i - O.length < (((P.filter (fun e => touches v e)).map
          (otherEnd v)).map (fun c => (v, c))).length := by
        simp only [List.length_append] at h
        omega
      have hgr : (O ++ ((P.filter (fun e => touches v e)).map
          (otherEnd v)).map (fun c => (v, c)))[i] =
          (((P.filter (fun e => touches v e)).map (otherEnd v)).map
            (fun c => (v, c)))[i - O.length] :=
        List.getElem_append_right hi
      rw [hgr, List.getElem_map]
      show v ∈ _
      have hpref : (r :: (O ++ ((P.filter (fun e => touches v e)).map
            (otherEnd v)).map (fun c => (v, c))).map Prod.snd).take
          (D.length + 1) = D ++ [v] := by
        rw [List.map_append, ← List.cons_append,
          List.take_append_of_le_length
            (by simp only [List.length_cons, List.length_map]; omega),
          ← inv.disc,
          show D ++ v :: Q = (D ++ [v]) ++ Q by simp,
          show D.length + 1 = (D ++ [v]).length by simp,
          List.take_left]
      have hvmem : v ∈ (r :: (O ++ ((P.filter (fun e => touches v e)).map
            (otherEnd v)).map (fun c => (v, c))).map Prod.snd).take
          (D.length + 1) := by
        rw [hpref]
        exact List.mem_append_right _ (List.mem_singleton.mpr rfl)
      exact mem_take_of_le (by omega) hvmem

theorem bfs_loop {T : List (Nat × Nat)} {r nv : Nat}
    (hT : ∀ e ∈ T, e.1 < nv ∧ e.2 < nv) :
    ∀ (n : Nat) (Q : List Nat) (P O : List (Nat × Nat)) (D : List Nat),
      Q.length + 2 * P.length = n →
      BfsInv T r nv D Q P O →
      ∃ D' P', BfsInv T r nv D' [] P' (correctTreeEdgesLoop Q P O) := by
  intro n
  induction n using Nat.strong_induction_on with
  | _ n ih =>
    intro Q P O D hn inv
    match Q with
    | [] =>
      refine ⟨D, P, ?_⟩
      rw [correctTreeEdgesLoop]
      exact inv
    | v :: rest =>
      rw [correctTreeEdgesLoop]
      have hsplit := List.length_eq_length_filter_add (l := P)
        (fun e => touches v e)
      simp only at hsplit
      simp only [List.length_cons] at hn
      refine ih ((rest ++ (P.filter (fun e => touches v e)).map
          (otherEnd v)).length +
          2 * (P.filter (fun e => !touches v e)).length) ?_ _ _ _
        (D ++ [v]) rfl (bfs_step hT inv)
      simp only [List.length_append, List.length_map]
      omega

theorem bfs_final {T : List (Nat × Nat)} {r nv : Nat} {D : List Nat}
    {P O : List (Nat × Nat)}
    (hT : ∀ e ∈ T, e.1 < nv ∧ e.2 < nv)
    (hTlen : T.length + 1 = nv)
    (hconn : ∀ w, w < nv → ReachU T r w)
    (inv : BfsInv T r nv D [] P O) :
    O.length = T.length ∧ (r :: O.map Prod.snd).Nodup ∧
      (∀ w, w < nv → w ∈ r :: O.map Prod.snd) ∧ P = [] := by
  have hD : D = r :: O.map Prod.snd := by simpa using inv.disc
  have hclose : ∀ w, ReachU T r w → w ∈ D := by
    intro w hw
    induction hw with
    | refl => rw [hD]; exact List.mem_cons_self _ _
    | tail _ hadj ih =>
      rcases hadj with he | he
      · rcases inv.cls1 _ he ih with h | h
        · exact h
        · cases h
      · rcases inv.cls2 _ he ih with h | h
        · exact h
        · cases h
  have hall : ∀ w, w < nv → w ∈ D := fun w hw => hclose w (hconn w hw)
  have hP : P = [] := by
    rw [List.eq_nil_iff_forall_not_mem]
    intro e he
    have hb := hT e (inv.subT e he)
    exact inv.pool1 e he (hall e.1 hb.1)
  have hlen : O.length = T.length := by
    have hc := inv.cnt
    rw [hP] at hc
    simpa using hc
  have hDlen : D.length = nv := by
    rw [hD]
    simp only [List.length_cons, List.length_map]
    omega
  have hnodup : D.Nodup := by
    have hsub1 : Finset.range nv ⊆ D.toFinset := by
      intro w hw
      rw [List.mem_toFinset]
      exact hall w (Finset.mem_range.mp hw)
    have h1 : nv ≤ D.toFinset.card := by
      have := Finset.card_le_card hsub1
      simpa using this
    have h2 : D.toFinset.card = D.dedup.length := List.card_toFinset D
    have h3 : D.dedup.length ≤ D.length := (List.dedup_sublist D).length_le
    have h5 : D.dedup = D := (List.dedup_sublist D).eq_of_length (by omega)
    exact List.dedup_eq_self.mp h5
  exact ⟨hlen, hD ▸ hnodup, fun w hw => hD ▸ hall w hw, hP⟩

theorem indexOf_lt_of_mem_take {L : List Nat} {p n : Nat}
    (h : p ∈ L.take n) : L.indexOf p < n := by
  induction L generalizing n with
  | nil => simp at h
  | cons a l ih =>
    match n with
    | 0 => simp at h
    | m + 1 =>
      rw [List.take_succ_cons] at h
      by_cases hpa : p = a
      · subst hpa
        rw [List.indexOf_cons_self]
        omega
      · have h' : p ∈ l.take m := by
          rcases List.mem_cons.mp h with h0 | h0
          · exact absurd h0 hpa
          · exact h0
        rw [List.indexOf_cons_ne _ (fun hh => hpa hh.symm)]
        have := ih h'
        omega

theorem nodup_indexOf_get {L : List Nat} (h : L.Nodup) :
    ∀ (k : Nat) (hk : k < L.length), L.indexOf (L.get ⟨k, hk⟩) = k := by
  induction L with
  | nil => intro k hk; simp at hk
  | cons a l ih =>
    intro k hk
    match k with
    | 0 =>
      rw [show (a :: l).get ⟨0, hk⟩ = a from rfl, List.indexOf_cons_self]
    | m + 1 =>
      rcases List.nodup_cons.mp h with ⟨ha, hl⟩
      have hm : m < l.length := by
        simp only [List.length_cons] at hk
        omega
      rw [show (a :: l).get ⟨m + 1, hk⟩ = l.get ⟨m, hm⟩ from rfl]
      have hne : a ≠ l.get ⟨m, hm⟩ := fun hh => ha (hh ▸ l.get_mem m hm)
      rw [List.indexOf_cons_ne _ hne, ih hl m hm]

theorem parEarly_rank {r : Nat} {O : List (Nat × Nat)}
    (hnd : (r :: O.map Prod.snd).Nodup)
    (hpe : ∀ i (h : i < O.length),
      (O.get ⟨i, h⟩).1 ∈ (r :: O.map Prod.snd).take (i + 1)) :
    ∀ p c, (p, c) ∈ O →
      (r :: O.map Prod.snd).indexOf p <
        (r :: O.map Prod.snd).indexOf c := by
  intro p c hpc
  rcases List.mem_iff_get.mp hpc with ⟨⟨i, hi⟩, hget⟩
  have hi1 : i + 1 < (r :: O.map Prod.snd).length := by
    simp only [List.length_cons, List.length_map]
    omega
  have hc : (r :: O.map Prod.snd).get ⟨i + 1, hi1⟩ = c := by
    rw [show (r :: O.map Prod.snd).get ⟨i + 1, hi1⟩ =
      (O.map Prod.snd).get ⟨i, by simpa using hi⟩ from rfl]
    have hmap : (O.map Prod.snd).get ⟨i, by simpa using hi⟩ =
        (O.get ⟨i, hi⟩).2 := by
      simp [List.get_eq_getElem, List.getElem_map]
    rw [hmap, hget]
  have hidxc : (r :: O.map Prod.snd).indexOf c = i + 1 := by
    rw [← hc]
    exact nodup_indexOf_get hnd (i + 1) hi1
  have hp : p ∈ (r :: O.map Prod.snd).take (i + 1) := by
    have h0 := hpe i hi
    rw [hget] at h0
    exact h0
  have := indexOf_lt_of_mem_take hp
  omega

theorem dfsRun_unfold (adj : List (List Nat)) (directed : Bool)
    (fuel node : Nat) (st : DfsState) :
    dfsRun adj directed (fuel + 1) node st =
      if node ∈ st.entered then st
      else
        let st2 :=
          (adj.getD node []).foldl
            (fun s y =>
              dfsRun adj directed fuel y (dfsClassify directed node s y))
            { st with entered := st.entered ++ [node] }
        { st2 with exited := st2.exited ++ [node] } := rfl

theorem dfsRun_no_back {adj : List (List Nat)} {f : Nat → Nat}
    (hmono : ∀ n y, y ∈ adj.getD n [] → f n < f y) :
    ∀ (fuel node : Nat) (st : DfsState),
      (∀ w ∈ st.exited, w ∈ st.entered) →
      st.back_edges = [] →
      (∀ w, w ∈ st.entered → w ∉ st.exited → f w ≤ f node) →
      (dfsRun adj true fuel node st).back_edges = [] ∧
        (∀ w ∈ st.entered, w ∈ (dfsRun adj true fuel node st).entered) ∧
        (∀ w ∈ (dfsRun adj true fuel node st).exited,
          w ∈ (dfsRun adj true fuel node st).entered) ∧
        (∀ w, (w ∈ (dfsRun adj true fuel node st).entered ∧
            w ∉ (dfsRun adj true fuel node st).exited) ↔
          (w ∈ st.entered ∧ w ∉ st.exited)) := by
  intro fuel
  induction fuel with
  | zero =>
    intro node st h1 h2 _
    exact ⟨h2, fun w hw => hw, h1, fun w => Iff.rfl⟩
  | succ fuel ih =>
    intro node st hexent hback hgray
    by_cases hent : node ∈ st.entered
    · rw [dfsRun_unfold, if_pos hent]
      exact ⟨hback, fun w hw => hw, hexent, fun w => Iff.rfl⟩
    · rw [dfsRun_unfold, if_neg hent]
      have hnodeex : node ∉ st.exited := fun h => hent (hexent node h)
      have hfold : ∀ (ys : List Nat), (∀ y ∈ ys, y ∈ adj.getD node []) →
          ∀ s : DfsState,
            ((∀ w ∈ s.exited, w ∈ s.entered) ∧ s.back_edges = [] ∧
              (∀ w, (w ∈ s.entered ∧ w ∉ s.exited) ↔
                ((w ∈ st.entered ∧ w ∉ st.exited) ∨ w = node)) ∧
              (∀ w, w ∈ st.entered ∨ w = node → w ∈ s.entered)) →
            ((∀ w ∈ (ys.foldl (fun s y => dfsRun adj true fuel y
                  (dfsClassify true node s y)) s).exited,
                w ∈ (ys.foldl (fun s y => dfsRun adj true fuel y
                  (dfsClassify true node s y)) s).entered) ∧
              (ys.foldl (fun s y => dfsRun adj true fuel y
                (dfsClassify true node s y)) s).back_edges = [] ∧
              (∀ w, (w ∈ (ys.foldl (fun s y => dfsRun adj true fuel y
                    (dfsClassify true node s y)) s).entered ∧
                  w ∉ (ys.foldl (fun s y => dfsRun adj true fuel y
                    (dfsClassify true node s y)) s).exited) ↔
                ((w ∈ st.entered ∧ w ∉ st.exited) ∨ w = node)) ∧
              (∀ w, w ∈ st.entered ∨ w = node →
                w ∈ (ys.foldl (fun s y => dfsRun adj true fuel y
                  (dfsClassify true node s y)) s).entered)) := by
        intro ys
        induction ys with
        | nil => intro _ s hs; exact hs
        | cons y tl ihy =>
          intro hys s hs
          rw [List.foldl_cons]
          refine ihy (fun z hz => hys z (List.mem_cons_of_mem _ hz)) _ ?_
          obtain ⟨hs1, hs2, hs3, hs4⟩ := hs
          have hyadj : y ∈ adj.getD node [] := hys y (List.mem_cons_self _ _)
          have hfy := hmono node y hyadj
          have hcls : (dfsClassify true node s y).entered = s.entered ∧
              (dfsClassify true node s y).exited = s.exited ∧
              (dfsClassify true node s y).back_edges = s.back_edges := by
            rw [dfsClassify]
            by_cases hy1 : y ∉ s.entered
            · rw [if_pos hy1]
              exact ⟨rfl, rfl, rfl⟩
            · rw [if_neg hy1]
              have hy2 : ¬((true = false ∧
                  assocGet s.tree_edges node ≠ some y) ∨
                  (true = true ∧ y ∉ s.exited)) := by
                rintro (⟨hff, -⟩ | ⟨-, hyex⟩)
                · cases hff
                · have hgys := (hs3 y).mp ⟨not_not.mp hy1, hyex⟩
                  rcases hgys with ⟨hy3, hy4⟩ | rfl
                  · have := hgray y hy3 hy4
                    omega
                  · omega
              rw [if_neg hy2]
              exact ⟨rfl, rfl, rfl⟩
          obtain ⟨hc1, hc2, hc3⟩ := hcls
          have hargs1 : ∀ w ∈ (dfsClassify true node s y).exited,
              w ∈ (dfsClassify true node s y).entered := by
            rw [hc1, hc2]; exact hs1
          have hargs2 : (dfsClassify true node s y).back_edges = [] := by
            rw [hc3]; exact hs2
          have hargs3 : ∀ w, w ∈ (dfsClassify true node s y).entered →
              w ∉ (dfsClassify true node s y).exited → f w ≤ f y := by
            rw [hc1, hc2]
            intro w hw1 hw2
            rcases (hs3 w).mp ⟨hw1, hw2⟩ with ⟨hw3, hw4⟩ | rfl
            · have := hgray w hw3 hw4
              omega
            · omega
          obtain ⟨hr1, hr2, hr3, hr4⟩ :=
            ih y (dfsClassify true node s y) hargs1 hargs2 hargs3
          refine ⟨hr3, hr1, ?_, ?_⟩
          · intro w
            rw [hr4 w, hc1, hc2]
            exact hs3 w
          · intro w hw
            exact hr2 w (by rw [hc1]; exact hs4 w hw)
      have hP1 : (∀ w ∈ st.exited, w ∈ st.entered ++ [node]) ∧
          st.back_edges = [] ∧
          (∀ w, (w ∈ st.entered ++ [node] ∧ w ∉ st.exited) ↔
            ((w ∈ st.entered ∧ w ∉ st.exited) ∨ w = node)) ∧
          (∀ w, w ∈ st.entered ∨ w = node → w ∈ st.entered ++ [node]) := by
        refine ⟨?_, hback, ?_, ?_⟩
        · intro w hw
          exact List.mem_append_left _ (hexent w hw)
        · intro w
          constructor
          · rintro ⟨hw1, hw2⟩
            rcases List.mem_append.mp hw1 with h | h
            · exact Or.inl ⟨h, hw2⟩
            · exact Or.inr (List.mem_singleton.mp h)
          · rintro (⟨hw1, hw2⟩ | rfl)
            · exact ⟨List.mem_append_left _ hw1, hw2⟩
            · exact ⟨List.mem_append_right _ (List.mem_singleton.mpr rfl),
                hnodeex⟩
        · intro w hw
          rcases hw with h | rfl
          · exact List.mem_append_left _ h
          · exact List.mem_append_right _ (List.mem_singleton.mpr rfl)
      obtain ⟨hf1, hf2, hf3, hf4⟩ :=
        hfold (adj.getD node []) (fun y hy => hy)
          { st with entered := st.entered ++ [node] } hP1
      refine ⟨hf2, ?_, ?_, ?_⟩
      · intro w hw
        exact hf4 w (Or.inl hw)
      · intro w hw
        rcases List.mem_append.mp hw with h | h
        · exact hf1 w h
        · rw [List.mem_singleton.mp h]
          exact hf4 node (Or.inr rfl)
      · intro w
        constructor
        · rintro ⟨hw1, hw2⟩
          have hwne : w ≠ node := fun hh =>
            hw2 (List.mem_append_right _ (List.mem_singleton.mpr hh))
          have hw2' : w ∉ (((adj.getD node []).foldl
              (fun s y => dfsRun adj true fuel y
                (dfsClassify true node s y))
              { st with entered := st.entered ++ [node] })).exited :=
            fun hh => hw2 (List.mem_append_left _ hh)
          rcases (hf3 w).mp ⟨hw1, hw2'⟩ with h | h
          · exact h
          · exact absurd h hwne
        · rintro ⟨hw1, hw2⟩
          have hwne : w ≠ node := fun hh => hent (hh ▸ hw1)
          have hgw := (hf3 w).mpr (Or.inl ⟨hw1, hw2⟩)
          refine ⟨hgw.1, fun hh => ?_⟩
          rcases List.mem_append.mp hh with h | h
          · exact hgw.2 h
          · exact hwne (List.mem_singleton.mp h)

theorem Tree.init_ok_unfold {arr : List (Nat × Nat)} {root : Nat}
    {g0 : Graph} (h : Graph.init true arr = .ok g0) :
    Tree.init arr root =
      if ¬(g0.is_tree = true ∧ g0.n_edges = g0.n_vertices - 1) then
        .error ("The provided edges do not represent a tree.")
      else if g0.n_vertices - 1 < root then
        .error ("The vertex must be between 0 and n_vertices-1.")
      else .ok { g := g0, root_vertex := root,
                 predecessors_list := getPredecessorsList g0 } := by
  rw [Tree.init, h]

theorem hasCyclesList_false {adj : List (List Nat)} {f : Nat → Nat}
    (hmono : ∀ n y, y ∈ adj.getD n [] → f n < f y) :
    hasCyclesList adj true = false := by
  rw [hasCyclesList, List.any_eq_false]
  intro x _
  have hb := (dfsRun_no_back hmono (adj.length + 1) x ⟨[], [], [], []⟩
    (fun w hw => absurd hw (List.not_mem_nil w)) rfl
    (fun w hw => absurd hw (List.not_mem_nil w))).1
  simp [hb]

/-- C5: for every undirected graph whose external MST solver returns an
unordered edge set forming a spanning tree of the graph's vertices (drawn
from the graph's own topology), `minimum_spanning_tree` succeeds and returns
a `Tree` with exactly `V - 1` oriented parent→child edges, no cycles
(`has_cycles` is false and `is_tree` holds), rooted at the requested root,
and every edge of the result is an orientation of a solver edge.
`2 ≤ V` holds for every undirected graph without self-loops. -/
theorem menpo_c5_minimum_spanning_tree (g : Graph)
    (weights : List (List Int)) (T : List (Nat × Nat)) (root : Nat)
    (hdir : g.directed = false) (hV : 2 ≤ g.n_vertices)
    (hroot : root < g.n_vertices)
    (hspan : isSpanningTree g.n_vertices T)
    (hsub : ∀ e ∈ T, e ∈ g.adjacency_array ∨
      (e.2, e.1) ∈ g.adjacency_array) :
    ∃ t : Tree, g.minimum_spanning_tree weights T root = .ok t ∧
      t.g.adjacency_array.length = g.n_vertices - 1 ∧
      t.root_vertex = root ∧
      t.g.has_cycles = false ∧
      t.g.is_tree = true ∧
      ∀ e ∈ t.g.adjacency_array, e ∈ T ∨ (e.2, e.1) ∈ T := by
  obtain ⟨hTlen, hTb, hconn0⟩ := hspan
  have hconnr : ∀ v, v < g.n_vertices → ReachU T root v := fun v hv =>
    ReachU.trans' (ReachU.symm' (hconn0 root hroot)) (hconn0 v hv)
  have inv0 : BfsInv T root g.n_vertices [] [root] T [] := by
    refine ⟨fun e he => he, rfl, ?_, ?_, ?_, ?_, ?_, ?_, ?_, ?_, ?_⟩
    · intro e _ h
      exact absurd h (List.not_mem_nil _)
    · intro e _ h
      exact absurd h (List.not_mem_nil _)
    · intro e he _ _
      exact he
    · intro e _ h
      exact absurd h (List.not_mem_nil _)
    · intro e _ h
      exact absurd h (List.not_mem_nil _)
    · intro v hv
      rcases hv with h | h
      · exact absurd h (List.not_mem_nil _)
      · rw [List.mem_singleton.mp h]
        exact hroot
    · simp
    · intro pc h
      exact absurd h (List.not_mem_nil _)
    · intro i h
      simp at h
  obtain ⟨D', P', invF⟩ := bfs_loop hTb (1 + 2 * T.length) [root] T [] []
    (by simp) inv0
  obtain ⟨hOlen, hnd, hallmem, hP'⟩ := bfs_final hTb hTlen hconnr invF
  have horient := invF.orient
  have hpe := invF.parEarly
  have hOlen' : (correctTreeEdges T root).length = g.n_vertices - 1 := by
    rw [show correctTreeEdges T root = correctTreeEdgesLoop [root] T []
      from rfl] at *
    omega
  have hOne : correctTreeEdges T root ≠ [] := by
    intro h
    rw [show correctTreeEdges T root = correctTreeEdgesLoop [root] T []
      from rfl] at h
    rw [h] at hOlen
    simp at hOlen
    omega
  have hOb : ∀ pc ∈ correctTreeEdgesLoop [root] T [],
      pc.1 < g.n_vertices ∧ pc.2 < g.n_vertices := by
    intro pc hpc
    rcases horient pc hpc with h | h
    · exact hTb pc h
    · have := hTb _ h
      exact ⟨this.2, this.1⟩
  have hheadfst : ∃ pc ∈ correctTreeEdgesLoop [root] T [], pc.1 = root := by
    have h0 : 0 < (correctTreeEdgesLoop [root] T []).length := by
      rw [show correctTreeEdgesLoop [root] T [] = correctTreeEdges T root
        from rfl, hOlen']
      omega
    have := hpe 0 h0
    rw [show (root :: (correctTreeEdgesLoop [root] T []).map
      Prod.snd).take (0 + 1) = [root] from rfl] at this
    exact ⟨(correctTreeEdgesLoop [root] T []).get ⟨0, h0⟩,
      (correctTreeEdgesLoop [root] T []).get_mem 0 h0,
      List.mem_singleton.mp this⟩
  have hend : ∀ w, w ∈ root :: (correctTreeEdgesLoop [root] T []).map
      Prod.snd → ∃ pc ∈ correctTreeEdgesLoop [root] T [],
      pc.1 = w ∨ pc.2 = w := by
    intro w hw
    rcases List.mem_cons.mp hw with rfl | hw
    · rcases hheadfst with ⟨pc, hpc, h⟩
      exact ⟨pc, hpc, Or.inl h⟩
    · rcases List.mem_map.mp hw with ⟨pc, hpc, rfl⟩
      exact ⟨pc, hpc, Or.inr rfl⟩
  have hmax : arrMax (correctTreeEdgesLoop [root] T []) =
      g.n_vertices - 1 := by
    refine Nat.le_antisymm (arrMax_le ?_) ?_
    · intro e he
      have := hOb e he
      omega
    · rcases hend (g.n_vertices - 1) (hallmem _ (by omega)) with
        ⟨pc, hpc, h | h⟩
      · have := (le_arrMax_of_mem hpc).1
        omega
      · have := (le_arrMax_of_mem hpc).2
        omega
  have hmin : arrMin (correctTreeEdgesLoop [root] T []) = 0 := by
    refine arrMin_eq_zero ?_
    rcases hend 0 (hallmem 0 (by omega)) with ⟨pc, hpc, h | h⟩
    · exact ⟨pc, hpc, Or.inl h⟩
    · exact ⟨pc, hpc, Or.inr h⟩
  have hNodupO : (correctTreeEdgesLoop [root] T []).Nodup :=
    List.Nodup.of_map Prod.snd (List.nodup_cons.mp hnd).2
  have huniq : uniqueArrayRows (correctTreeEdgesLoop [root] T []) =
      correctTreeEdgesLoop [root] T [] :=
    uniqueArrayRows_eq_self hNodupO
  have hinit := @Graph.init_eq_ok true (correctTreeEdgesLoop [root] T [])
    (by
      intro h
      exact hOne (by
        rw [show correctTreeEdges T root = correctTreeEdgesLoop [root] T []
          from rfl]
        exact List.length_eq_zero.mp h))
    hmin
  rw [huniq] at hinit
  have hrank := parEarly_rank hnd hpe
  have hmono : ∀ n y, y ∈ (getAdjacencyList true
      (correctTreeEdgesLoop [root] T [])
      (arrMax (correctTreeEdgesLoop [root] T []) + 1)).getD n [] →
      (root :: (correctTreeEdgesLoop [root] T []).map Prod.snd).indexOf n <
      (root :: (correctTreeEdgesLoop [root] T []).map Prod.snd).indexOf y := by
    intro n y hy
    rcases mem_getAdjacencyList hy with ⟨e, he, ⟨rfl, rfl⟩ | ⟨hff, -⟩⟩
    · exact hrank e.1 e.2 he
    · cases hff
  have hcyc : hasCyclesList (getAdjacencyList true
      (correctTreeEdgesLoop [root] T [])
      (arrMax (correctTreeEdgesLoop [root] T []) + 1)) true = false :=
    hasCyclesList_false hmono
  have hnvO : Graph.n_vertices ⟨true, correctTreeEdgesLoop [root] T [],
      getAdjacencyList true (correctTreeEdgesLoop [root] T [])
        (arrMax (correctTreeEdgesLoop [root] T []) + 1)⟩ =
      g.n_vertices := by
    rw [Graph.n_vertices]
    show arrMax (correctTreeEdgesLoop [root] T []) + 1 = g.n_vertices
    rw [hmax]
    omega
  have hneO : Graph.n_edges ⟨true, correctTreeEdgesLoop [root] T [],
      getAdjacencyList true (correctTreeEdgesLoop [root] T [])
        (arrMax (correctTreeEdgesLoop [root] T []) + 1)⟩ =
      g.n_vertices - 1 := by
    rw [Graph.n_edges]
    exact hOlen'
  have hcycO : Graph.has_cycles ⟨true, correctTreeEdgesLoop [root] T [],
      getAdjacencyList true (correctTreeEdgesLoop [root] T [])
        (arrMax (correctTreeEdgesLoop [root] T []) + 1)⟩ = false := by
    rw [Graph.has_cycles]
    exact hcyc
  have histree : Graph.is_tree ⟨true, correctTreeEdgesLoop [root] T [],
      getAdjacencyList true (correctTreeEdgesLoop [root] T [])
        (arrMax (correctTreeEdgesLoop [root] T []) + 1)⟩ = true := by
    rw [Graph.is_tree, hcycO, hneO, hnvO]
    simp
  refine ⟨⟨⟨true, correctTreeEdgesLoop [root] T [],
    getAdjacencyList true (correctTreeEdgesLoop [root] T [])
      (arrMax (correctTreeEdgesLoop [root] T []) + 1)⟩, root,
    getPredecessorsList ⟨true, correctTreeEdgesLoop [root] T [],
      getAdjacencyList true (correctTreeEdgesLoop [root] T [])
        (arrMax (correctTreeEdgesLoop [root] T []) + 1)⟩⟩,
    ?_, ?_, rfl, ?_, ?_, ?_⟩
  · rw [Graph.minimum_spanning_tree,
      show correctTreeEdges T root = correctTreeEdgesLoop [root] T []
        from rfl, Tree.init_ok_unfold hinit]
    rw [if_neg (not_not.mpr ⟨histree, by rw [hneO, hnvO]⟩)]
    rw [if_neg (by rw [hnvO]; omega)]
  · exact hOlen'
  · exact hcycO
  · exact histree
  · exact horient

/-- The path graph 0 — 1 — 2 for the C5 witness. -/
def gC5w : Graph :=
  (Graph.init false [(0, 1), (1, 2)]).toOption.getD ⟨false, [], []⟩

/-- Witness for C5: the solver output `[(1,0), (1,2)]` (unordered, scrambled
orientations) on the path graph, rooted at 0. -/
theorem menpo_c5_witness :
    Graph.init false [(0, 1), (1, 2)] = Except.ok gC5w ∧
      gC5w.directed = false ∧ 2 ≤ gC5w.n_vertices ∧ 0 < gC5w.n_vertices ∧
      isSpanningTree gC5w.n_vertices [(1, 0), (1, 2)] ∧
      (∀ e ∈ [(1, 0), (1, 2)], e ∈ gC5w.adjacency_array ∨
        (e.2, e.1) ∈ gC5w.adjacency_array) ∧
      ∃ t : Tree, gC5w.minimum_spanning_tree [] [(1, 0), (1, 2)] 0 =
          .ok t ∧
        t.g.adjacency_array.length = gC5w.n_vertices - 1 ∧
        t.root_vertex = 0 ∧ t.g.has_cycles = false ∧ t.g.is_tree = true ∧
        ∀ e ∈ t.g.adjacency_array, e ∈ [(1, 0), (1, 2)] ∨
          (e.2, e.1) ∈ [(1, 0), (1, 2)] := by
  have hspan : isSpanningTree gC5w.n_vertices [(1, 0), (1, 2)] := by
    refine ⟨by decide, by decide, ?_⟩
    intro v hv
    have h3 : v < 3 := hv
    interval_cases v
    · exact ReachU.refl 0
    · exact ReachU.tail (ReachU.refl 0)
        (show adjU [(1, 0), (1, 2)] 0 1 from Or.inr (by decide))
    · exact ReachU.tail
        (ReachU.tail (ReachU.refl 0)
          (show adjU [(1, 0), (1, 2)] 0 1 from Or.inr (by decide)))
        (show adjU [(1, 0), (1, 2)] 1 2 from Or.inl (by decide))
  exact ⟨rfl, rfl, by decide, by decide, hspan, by decide,
    menpo_c5_minimum_spanning_tree gC5w [] [(1, 0), (1, 2)] 0 rfl
      (by decide) (by decide) hspan (by decide)⟩

end Menpo
